import Mathlib

/-
  Verification of the cut-assembly pipeline of
  Streamlit/manga_support_ai/llm_workflow.py.

  Python strings are modelled as lists of characters (one list entry per
  code point), Python ints as Lean Int / Nat with explicit conversions.
  External collaborators (the OpenAI client, streamlit, hashlib, logging)
  are abstracted: the oracle's per-window behaviour is an explicit input
  of the assembler, and the sha1 checksum field is omitted from the Cut
  record because no property below mentions it.
-/

namespace MSA

/-- Python strings, one entry per code point. -/
abbrev Str := List Char

/-- The whitespace characters stripped by Python's str.strip() that are
    relevant to this code base (ASCII whitespace, NEL, NBSP and the
    ideographic space). -/
def pySpace (c : Char) : Bool :=
  c = ' ' || c = '\t' || c = '\n' || c = '\r' ||
  c = Char.ofNat 11 || c = Char.ofNat 12 || c = Char.ofNat 0x85 ||
  c = Char.ofNat 0xa0 || c = Char.ofNat 0x3000

/-- text.replace("\r\n", "\n").replace("\r", "\n"): every CRLF pair becomes
    one LF, every remaining CR becomes LF. -/
def pyNormalize : Str → Str
  | [] => []
  | '\r' :: '\n' :: rest => '\n' :: pyNormalize rest
  | '\r' :: rest => '\n' :: pyNormalize rest
  | c :: rest => c :: pyNormalize rest

/-- Python slice s[a:b] for 0 ≤ a ≤ b (both clamped to the length). -/
def pySlice (s : Str) (a b : Nat) : Str := (s.drop a).take (b - a)

/-- Python s.lstrip(). -/
def pyLstrip (s : Str) : Str := s.dropWhile pySpace

/-- Python s.rstrip(). -/
def pyRstrip (s : Str) : Str := (s.reverse.dropWhile pySpace).reverse

/-- Python s.strip(). -/
def pyStrip (s : Str) : Str := pyRstrip (pyLstrip s)

/-- Python s.rfind(a) for a one-character needle: last index, or -1. -/
def rfind1 (a : Char) : Str → Int
  | [] => -1
  | c :: rest =>
    let r := rfind1 a rest
    if r ≥ 0 then r + 1
    else if c = a then 0 else -1

/-- Python s.rfind(ab) for a two-character needle: last start index, or -1. -/
def rfind2 (a b : Char) : Str → Int
  | [] => -1
  | c :: rest =>
    let r := rfind2 a b rest
    if r ≥ 0 then r + 1
    else
      match rest with
      | d :: _ => if c = a ∧ d = b then 0 else -1
      | [] => -1

/-- llm_workflow.derive_cut_parameters (lines 154-160).  Python evaluates
    int(target*0.75), int(target*1.25), int(target*0.6), int(target*1.6)
    with IEEE doubles; for the integer targets involved these coincide with
    the exact floors 3t/4, 5t/4, 3t/5, 8t/5, which is how they are written
    here.  Returns (cut_min, cut_max, target_min, target_max). -/
def derive_cut_parameters (target : Int) : Nat × Nat × Nat × Nat :=
  let t : Nat := (max 80 target).toNat
  let target_min := max 50 (3 * t / 4)
  let target_max := max (target_min + 30) (5 * t / 4)
  let cut_min := max 40 (3 * t / 5)
  let cut_max := max (cut_min + 50) (8 * t / 5)
  (cut_min, cut_max, target_min, target_max)

/-- llm_workflow._detect_global_span (lines 194-200).  The float comparison
    local_value > chunk_size * 1.5 is exact for the integers involved and is
    written as 2*v > 3*size.  chunk_end is unused, as in the source. -/
def _detect_global_span (localValue chunkStart _chunkEnd chunkSize : Int) : Int :=
  if localValue < 0 then chunkStart
  else if 2 * localValue > 3 * chunkSize then localValue
  else chunkStart + localValue

/-- Span post-processing of llm_cut_and_label_with_params (lines 311-323):
    reconcile both reported ends and apply the four clamping fixups in
    source order.  textLen is len(text_local) after truncation. -/
def reconcileSpan (ls le : Int) (winStart size textLen : Nat) : Int × Int :=
  let gs := _detect_global_span ls winStart (winStart + size) size
  let ge := _detect_global_span le winStart (winStart + size) size
  let ge1 := if ge ≤ gs then gs + textLen else ge
  let gs1 := if gs < (winStart : Int) then (winStart : Int) else gs
  let ge2 := if ge1 < gs1 then gs1 else ge1
  let ge3 := if ge2 > (winStart : Int) + size then (winStart : Int) + size else ge2
  (gs1, ge3)

/-- The split point chosen by one iteration of _split_fallback_chunk's while
    loop (lines 170-181): tentative end at cursor+cut_max, moved back to just
    after the rightmost paragraph break / full stop / comma scoring at least
    cut_min - 1, provided the tentative end is not the text end. -/
def splitPointOf (norm : Str) (cutMin cutMax cursor : Nat) : Nat :=
  let tentativeEnd := min (cursor + cutMax) norm.length
  if tentativeEnd < norm.length then
    let w := pySlice norm cursor tentativeEnd
    let candidates : List Int := [rfind2 '\n' '\n' w, rfind1 '。' w, rfind1 '、' w]
    match candidates.filter (fun c => c ≥ (cutMin : Int) - 1) with
    | [] => tentativeEnd
    | v :: vs => ((cursor : Int) + vs.foldl max v + 1).toNat
  else tentativeEnd

/-- The cursor after one iteration of _split_fallback_chunk's while loop
    (line 190): the split point if it advanced, otherwise the tentative end. -/
def nextCursorOf (norm : Str) (cutMin cutMax cursor : Nat) : Nat :=
  let sp := splitPointOf norm cutMin cutMax cursor
  if sp > cursor then sp else min (cursor + cutMax) norm.length

/-- The while loop of _split_fallback_chunk (lines 169-190), fuelled; none
    models non-termination of the Python loop (possible only for
    cut_max = 0, see C10). -/
def splitGo (norm : Str) (cutMin cutMax : Nat) : Nat → Nat → Option (List (Nat × Nat × Str))
  | 0, _ => none
  | fuel + 1, cursor =>
    if cursor < norm.length then
      let sp := splitPointOf norm cutMin cutMax cursor
      let segRaw := pySlice norm cursor sp
      let seg := pyStrip segRaw
      match splitGo norm cutMin cutMax fuel (nextCursorOf norm cutMin cutMax cursor) with
      | none => none
      | some tail =>
        if seg = [] then some tail
        else
          some ((cursor + (segRaw.length - (pyLstrip segRaw).length),
                 (pyRstrip segRaw).length + cursor, seg) :: tail)
    else some []

/-- llm_workflow._split_fallback_chunk (lines 163-191): normalize line
    endings and run the split loop; fuel length+1 is sufficient whenever
    cut_max ≥ 1 (theorem C10). -/
def _split_fallback_chunk (text : Str) (cutMin cutMax : Nat) : List (Nat × Nat × Str) :=
  let norm := pyNormalize text
  (splitGo norm cutMin cutMax (norm.length + 1) 0).getD []

/-- The (possibly snapped) end of the window starting at i in chunk_for_llm
    (lines 210-213): propose min(i+window, n); if the last double newline of
    the proposed slice sits at or after int(window*0.5) = window/2, snap the
    end back to it.  Note the snap applies regardless of whether the
    proposed end reaches the text end. -/
def chunkEndOf (t : Str) (window i : Nat) : Nat :=
  let e0 := min (i + window) t.length
  let brk := rfind2 '\n' '\n' (pySlice t i e0)
  if brk ≥ ((window / 2 : Nat) : Int) then i + brk.toNat else e0

/-- The while loop of chunk_for_llm (lines 209-218), fuelled; fuel
    length+1 is always sufficient because the start strictly increases. -/
def chunkGo (t : Str) (window overlap : Nat) : Nat → Nat → List (Nat × Nat)
  | 0, _ => []
  | fuel + 1, i =>
    if i < t.length then
      let e := chunkEndOf t window i
      if e ≥ t.length then [(i, e)]
      else (i, e) :: chunkGo t window overlap fuel (max (i + 1) (e - overlap))
    else []

/-- llm_workflow.chunk_for_llm (lines 203-219). -/
def chunk_for_llm (text : Str) (window overlap : Nat) : List (Nat × Nat) :=
  let t := pyNormalize text
  chunkGo t window overlap (t.length + 1) 0

/-- The speakers field of a parsed oracle record: absent/null, a single
    string, or a list of strings (lines 325-327 accept both shapes). -/
inductive SpeakersField where
  | absent
  | one (s : Str)
  | many (l : List Str)
deriving DecidableEq, Repr

/-- One parsed oracle record (an element of the JSON array) with its fields
    already extracted.  none models an absent or null field; records with
    type-confused fields (for example a numeric text) raise inside the item
    loop and push the whole window onto the fallback path, which is covered
    by the Attempt.exc case below. -/
structure Item where
  text : Option Str := none
  locStart : Option Int := none
  locEnd : Option Int := none
  typ : Option Str := none
  speaker : Option Str := none
  speakers : SpeakersField := SpeakersField.absent
  time : Option Str := none
  location : Option Str := none
  scene : Option Str := none
  tone : Option Str := none
  emotion : Option Str := none
  action : Option Str := none
  entities : Option (List Str) := none
deriving DecidableEq, Repr

/-- The Panel dataclass (lines 126-151) as emitted by the assembler.  The
    checksum field (sha1 of the final text, an external library call) is
    omitted; no property below mentions it. -/
structure Panel where
  id : Str
  text : Str
  typ : Str
  speaker : Str
  speakers : Option (List Str)
  time : Str
  location : Str
  scene : Str
  tone : Str
  emotion : Str
  action : Str
  entities : List Str
  spanStart : Int
  spanEnd : Int
deriving DecidableEq, Repr

/-- str(n).zfill(4). -/
def zfill4 (n : Nat) : Str :=
  let d := Nat.toDigits 10 n
  List.replicate (4 - d.length) '0' ++ d

/-- The emitted identifier f"c{str(counter).zfill(4)}" (lines 334, 378). -/
def cutId (n : Nat) : Str := 'c' :: zfill4 n

/-- The outcome of one window's oracle call plus parse, the assembler's
    per-window input: exc means _call_llm_chunk raised (auth records whether
    the exception was openai.AuthenticationError); resp carries the value of
    _safe_json_loads on the returned text. -/
inductive Attempt where
  | exc (auth : Bool)
  | resp (data : Option (List Item))

/-- Processing of one oracle record (lines 304-351): returns none when the
    stripped text is empty (the record is skipped), otherwise the Panel
    built with identifier counter c. -/
def mkOraclePanel (cutMax winStart size c : Nat) (it : Item) : Option Panel :=
  let t0 := pyStrip (it.text.getD [])
  if t0 = [] then none
  else
    let textLocal := t0.take cutMax
    let ls := it.locStart.getD 0
    let le := it.locEnd.getD (ls + textLocal.length)
    let span := reconcileSpan ls le winStart size textLocal.length
    let rs0 : Option (List Str) :=
      match it.speakers with
      | SpeakersField.absent => none
      | SpeakersField.one s => some [s]
      | SpeakersField.many l => some l
    let fb := it.speaker.getD []
    let rawSpeakers : List Str :=
      match rs0 with
      | none => if fb = [] then [] else [fb]
      | some [] => if fb = [] then [] else [fb]
      | some xs => xs
    let clean := (rawSpeakers.map pyStrip).filter (fun s => s ≠ [])
    let primary :=
      match clean with
      | p :: _ => p
      | [] =>
        let sp := it.speaker.getD ("unknown".toList)
        if sp = [] then ("unknown".toList) else sp
    some
      { id := cutId c
        text := textLocal
        typ := it.typ.getD ("unknown".toList)
        speaker := primary
        speakers := if clean = [] then none else some clean
        time := it.time.getD ("unknown".toList)
        location := it.location.getD (it.scene.getD [])
        scene := it.scene.getD (it.location.getD [])
        tone := it.tone.getD ("neutral".toList)
        emotion := it.emotion.getD ("neutral".toList)
        action := it.action.getD []
        entities := it.entities.getD []
        spanStart := span.1
        spanEnd := span.2 }

/-- The oracle-path item loop (lines 304-351): emits one Panel per
    non-empty record, incrementing the shared counter.  Returns the panels
    of this window and the final counter. -/
def oracleLoop (cutMax winStart size : Nat) : List Item → Nat → List Panel × Nat
  | [], c => ([], c)
  | it :: rest, c =>
    match mkOraclePanel cutMax winStart size c it with
    | none => oracleLoop cutMax winStart size rest c
    | some p =>
      (p :: (oracleLoop cutMax winStart size rest (c + 1)).1,
       (oracleLoop cutMax winStart size rest (c + 1)).2)

/-- Processing of one fallback segment (lines 374-397): skipped when it
    strips to empty, otherwise the narration Panel with counter c. -/
def mkFallbackPanel (winStart size c : Nat) (s : Nat × Nat × Str) : Option Panel :=
  let st := pyStrip s.2.2
  if st = [] then none
  else
    some
      { id := cutId c
        text := st
        typ := ("narration".toList)
        speaker := ("unknown".toList)
        speakers := none
        time := ("unknown".toList)
        location := []
        scene := []
        tone := ("neutral".toList)
        emotion := ("neutral".toList)
        action := []
        entities := []
        spanStart := ((winStart + s.1 : Nat) : Int)
        spanEnd := ((min (winStart + s.1 + st.length) (winStart + size) : Nat) : Int) }

/-- The fallback emission loop (lines 374-397). -/
def fallbackLoop (winStart size : Nat) : List (Nat × Nat × Str) → Nat → List Panel × Nat
  | [], c => ([], c)
  | s :: rest, c =>
    match mkFallbackPanel winStart size c s with
    | none => fallbackLoop winStart size rest c
    | some p =>
      (p :: (fallbackLoop winStart size rest (c + 1)).1,
       (fallbackLoop winStart size rest (c + 1)).2)

/-- The fallback segments for a window (lines 365-373): the splitter's
    result, or — when it is empty — a single whole-chunk segment if the
    chunk text does not strip to empty. -/
def windowSegs (cutMin cutMax : Nat) (chunkText : Str) : List (Nat × Nat × Str) :=
  let segs := _split_fallback_chunk chunkText cutMin cutMax
  if segs = [] then
    let stripped := pyStrip chunkText
    if stripped = [] then []
    else [(chunkText.length - (pyLstrip chunkText).length, (pyRstrip chunkText).length, stripped)]
  else segs

/-- Handling of one window (lines 286-398).  On every failure — a raised
    exception of either kind, or an unusable parse (None or an empty
    array) — control reaches the fallback branch: the `raise` for
    openai.AuthenticationError on line 361 sits inside the inner `try`
    whose handler `except Exception: pass` (lines 362-363) immediately
    catches the re-raised exception, so even the auth case falls through
    to the fallback and the run continues (see C2). -/
def processWindow (cutMin cutMax : Nat) (fullText : Str) (winStart winEnd : Nat)
    (att : Attempt) (c : Nat) : List Panel × Nat :=
  let chunkText := pySlice fullText winStart winEnd
  let size := winEnd - winStart
  match att with
  | Attempt.resp (some (it :: its)) => oracleLoop cutMax winStart size (it :: its) c
  | _ => fallbackLoop winStart size (windowSegs cutMin cutMax chunkText) c

/-- The per-window loop of llm_cut_and_label_with_params (lines 284-404):
    windows in order, one shared counter, panels concatenated in emission
    order.  attempts gives each window's oracle outcome by window index. -/
def runWindows (cutMin cutMax : Nat) (fullText : Str) (attempts : Nat → Attempt) :
    List (Nat × Nat) → Nat → Nat → List Panel
  | [], _, _ => []
  | ch :: rest, idx, c =>
    (processWindow cutMin cutMax fullText ch.1 ch.2 (attempts idx) c).1 ++
    runWindows cutMin cutMax fullText attempts rest (idx + 1)
      (processWindow cutMin cutMax fullText ch.1 ch.2 (attempts idx) c).2

/-- llm_workflow.llm_cut_and_label_with_params (lines 256-406), with the
    oracle call and response parse of each window abstracted into attempts.
    style_hint and character_glossary only shape the oracle request and are
    dropped. -/
def llm_cut_and_label_with_params (attempts : Nat → Attempt) (fullText : Str)
    (chunkTarget : Int) (window overlap : Nat) : List Panel :=
  let ps := derive_cut_parameters chunkTarget
  runWindows ps.1 ps.2.1 fullText attempts (chunk_for_llm fullText window overlap) 0 1

/-- True when the window's attempt forces the fallback branch of
    processWindow (exception of either kind, unparsable response, or an
    empty parsed array). -/
def attemptFails : Attempt → Bool
  | Attempt.resp (some (_ :: _)) => false
  | _ => true

/-! ### Association lists (Python dict semantics: ordered, update in place) -/

def alookup {α β : Type} [DecidableEq α] (k : α) : List (α × β) → Option β
  | [] => none
  | (a, b) :: r => if a = k then some b else alookup k r

def aset {α β : Type} [DecidableEq α] (k : α) (v : β) : List (α × β) → List (α × β)
  | [] => [(k, v)]
  | (a, b) :: r => if a = k then (k, v) :: r else (a, b) :: aset k v r

/-! ### The relationship reducer (generate_character_graph_dot) -/

/-- One character record of a parsed graph extraction; none models an
    absent or null field. -/
structure GraphChar where
  name : Option Str := none
  description : Option Str := none
deriving DecidableEq, Repr

/-- One relationship record of a parsed graph extraction. -/
structure GraphRel where
  src : Option Str := none
  tgt : Option Str := none
  label : Option Str := none
deriving DecidableEq, Repr

/-- One window's parsed graph extraction (the value _safe_json_object
    produced from the oracle response, shaped per the prompt contract). -/
structure GraphData where
  characters : List GraphChar := []
  relationships : List GraphRel := []
deriving DecidableEq, Repr

/-- The character-merge step of generate_character_graph_dot
    (lines 551-557): key is the stripped name as-is (case-sensitive);
    the stored description is replaced only when the key is new or the
    stored description is empty and the new one is not. -/
def addChar (nodes : List (Str × Str)) (ch : GraphChar) : List (Str × Str) :=
  let name := pyStrip (ch.name.getD [])
  if name = [] then nodes
  else
    let d := pyStrip (ch.description.getD [])
    if alookup name nodes = none ∨ (d ≠ [] ∧ alookup name nodes = some []) then
      aset name d nodes
    else nodes

/-- The relationship-merge step (lines 559-566); the Python label set is
    modelled as a list without duplicates in insertion order. -/
def addRel (edges : List ((Str × Str) × List Str)) (r : GraphRel) :
    List ((Str × Str) × List Str) :=
  let src := pyStrip (r.src.getD [])
  let tgt := pyStrip (r.tgt.getD [])
  let label0 := pyStrip (r.label.getD [])
  let label := if label0 = [] then ("関係".toList) else label0
  if src = [] ∨ tgt = [] ∨ src.map Char.toLower = tgt.map Char.toLower then edges
  else
    match alookup (src, tgt) edges with
    | none => edges ++ [((src, tgt), [label])]
    | some labels => aset (src, tgt) (if label ∈ labels then labels else labels ++ [label]) edges

/-- The node accumulation of generate_character_graph_dot's per-window
    loop (lines 545-557), over the list of per-window parsed extractions
    (none = window whose call or parse failed, simply skipped). -/
def graphNodesFrom (acc : List (Str × Str)) : List (Option GraphData) → List (Str × Str)
  | [] => acc
  | none :: rest => graphNodesFrom acc rest
  | some d :: rest => graphNodesFrom (d.characters.foldl addChar acc) rest

/-- The merged character nodes (name, description) of a full reduction
    run.  The DOT text assembly (lines 568-586) is presentation and not
    modelled; the spec makes the reduction semantics authoritative. -/
def graphNodes (exts : List (Option GraphData)) : List (Str × Str) :=
  graphNodesFrom [] exts

/-- The merged edges of a full reduction run (lines 559-566). -/
def graphEdgesFrom (acc : List ((Str × Str) × List Str)) :
    List (Option GraphData) → List ((Str × Str) × List Str)
  | [] => acc
  | none :: rest => graphEdgesFrom acc rest
  | some d :: rest => graphEdgesFrom (d.relationships.foldl addRel acc) rest

def graphEdges (exts : List (Option GraphData)) : List ((Str × Str) × List Str) :=
  graphEdgesFrom [] exts

/-- The stripped description of a character record when it mentions the
    given (stripped) name; none when the record is nameless or names
    someone else. -/
def charMention1 (name : Str) (c : GraphChar) : Option Str :=
  let nm := pyStrip (c.name.getD [])
  if nm = [] then none
  else if nm = name then some (pyStrip (c.description.getD [])) else none

/-- The stripped descriptions of the name's mentions in one extraction. -/
def charMentions (name : Str) (d : GraphData) : List Str :=
  d.characters.filterMap (charMention1 name)

/-- The stripped descriptions of every mention of the (stripped) name, in
    window order; used to state what the merge keeps. -/
def mentionDescs (exts : List (Option GraphData)) (name : Str) : List Str :=
  (exts.filterMap id).flatMap (charMentions name)

/-- The first non-empty entry, or "" when there is none. -/
def firstDesc (ms : List Str) : Str := (ms.filter (fun d => d ≠ [])).headD []

/-- How one name's stored description evolves across a list of further
    mentions, given its current state (none = name not seen yet). -/
def descUpd (o : Option Str) (ms : List Str) : Option Str :=
  match o with
  | none => if ms = [] then none else some (firstDesc ms)
  | some v => some (if v = [] then firstDesc ms else v)

/-! ### The oracle response parsers (C9) -/

/-- JSON values as decoded by Python's json.loads.  Numbers keep their
    source lexeme (no property below needs numeric semantics); Python's
    NaN/Infinity extensions are number lexemes too. -/
inductive Json where
  | null
  | bool (b : Bool)
  | num (lexeme : Str)
  | str (s : Str)
  | arr (elems : List Json)
  | obj (mems : List (Str × Json))
deriving Repr

/-- JSON interelement whitespace (json.loads). -/
def jWs (c : Char) : Bool := c = ' ' || c = '\t' || c = '\n' || c = '\r'

def dropJWs (s : Str) : Str := s.dropWhile jWs

def dq : Char := Char.ofNat 34
def lbrace : Char := Char.ofNat 123
def rbrace : Char := Char.ofNat 125
def btick : Char := Char.ofNat 96

def hexVal (c : Char) : Option Nat :=
  if '0' ≤ c ∧ c ≤ '9' then some (c.toNat - 48)
  else if 'a' ≤ c ∧ c ≤ 'f' then some (c.toNat - 87)
  else if 'A' ≤ c ∧ c ≤ 'F' then some (c.toNat - 55)
  else none

def escChar (e : Char) : Option Char :=
  if e = dq then some dq
  else if e = '\\' then some '\\'
  else if e = '/' then some '/'
  else if e = 'b' then some (Char.ofNat 8)
  else if e = 'f' then some (Char.ofNat 12)
  else if e = 'n' then some '\n'
  else if e = 'r' then some '\r'
  else if e = 't' then some '\t'
  else none

/-- JSON string body after the opening quote: rejects raw control
    characters (Python strict mode), decodes escapes; a \uXXXX escape maps
    to the code point directly (surrogate-pair recombination, which Python
    performs, is not modelled — no input below uses it). -/
def parseStrBody : Nat → Str → Option (Str × Str)
  | 0, _ => none
  | _ + 1, [] => none
  | fuel + 1, c :: rest =>
    if c = dq then some ([], rest)
    else if c = '\\' then
      match rest with
      | [] => none
      | e :: rest2 =>
        if e = 'u' then
          match rest2 with
          | h1 :: h2 :: h3 :: h4 :: rest3 =>
            match hexVal h1, hexVal h2, hexVal h3, hexVal h4 with
            | some a, some b, some c2, some d =>
              (parseStrBody fuel rest3).map
                (fun r => (Char.ofNat (((a * 16 + b) * 16 + c2) * 16 + d) :: r.1, r.2))
            | _, _, _, _ => none
          | _ => none
        else
          match escChar e with
          | some ch => (parseStrBody fuel rest2).map (fun r => (ch :: r.1, r.2))
          | none => none
    else if c.toNat < 32 then none
    else (parseStrBody fuel rest).map (fun r => (c :: r.1, r.2))

/-- Optional JSON fraction part. -/
def parseFrac (s : Str) : Option (Str × Str) :=
  match s with
  | '.' :: r =>
    let ds := r.takeWhile Char.isDigit
    if ds = [] then none else some ('.' :: ds, r.drop ds.length)
  | _ => some ([], s)

/-- Optional JSON exponent part. -/
def parseExp (s : Str) : Option (Str × Str) :=
  match s with
  | c :: r =>
    if c = 'e' ∨ c = 'E' then
      let sg : Str × Str := match r with
        | '+' :: rr => (['+'], rr)
        | '-' :: rr => (['-'], rr)
        | _ => ([], r)
      let ds := sg.2.takeWhile Char.isDigit
      if ds = [] then none else some (c :: (sg.1 ++ ds), sg.2.drop ds.length)
    else some ([], s)
  | [] => some ([], [])

/-- JSON number lexeme: -? (0 | [1-9][0-9]*) frac? exp?. -/
def parseNum (s : Str) : Option (Str × Str) :=
  let sgn : Str × Str := match s with
    | '-' :: r => (['-'], r)
    | _ => ([], s)
  match sgn.2 with
  | [] => none
  | c :: _ =>
    if c.isDigit = false then none
    else
      let intPart : Str := if c = '0' then ['0'] else sgn.2.takeWhile Char.isDigit
      let rest1 := sgn.2.drop intPart.length
      match parseFrac rest1 with
      | none => none
      | some (fr, rest2) =>
        match parseExp rest2 with
        | none => none
        | some (ex, rest3) => some (sgn.1 ++ intPart ++ fr ++ ex, rest3)

mutual

/-- Recursive-descent model of Python json.loads, fuelled.  Python quirks
    kept: NaN / Infinity / -Infinity accepted as numbers; object members
    with a repeated key keep the last value at the first position (dict
    insertion semantics, via aset). -/
def parseVal : Nat → Str → Option (Json × Str)
  | 0, _ => none
  | fuel + 1, s0 =>
    match dropJWs s0 with
    | [] => none
    | c :: rest =>
      if c = lbrace then parseObjBody fuel rest
      else if c = '[' then parseArrBody fuel rest
      else if c = dq then (parseStrBody (rest.length + 1) rest).map (fun r => (Json.str r.1, r.2))
      else if c = 't' then
        match rest with
        | 'r' :: 'u' :: 'e' :: r => some (Json.bool true, r)
        | _ => none
      else if c = 'f' then
        match rest with
        | 'a' :: 'l' :: 's' :: 'e' :: r => some (Json.bool false, r)
        | _ => none
      else if c = 'n' then
        match rest with
        | 'u' :: 'l' :: 'l' :: r => some (Json.null, r)
        | _ => none
      else if c = 'N' then
        match rest with
        | 'a' :: 'N' :: r => some (Json.num (['N', 'a', 'N']), r)
        | _ => none
      else if c = 'I' then
        match rest with
        | 'n' :: 'f' :: 'i' :: 'n' :: 'i' :: 't' :: 'y' :: r =>
          some (Json.num ("Infinity".toList), r)
        | _ => none
      else if c = '-' ∧ rest.headD ' ' = 'I' then
        match rest with
        | 'I' :: 'n' :: 'f' :: 'i' :: 'n' :: 'i' :: 't' :: 'y' :: r =>
          some (Json.num ("-Infinity".toList), r)
        | _ => none
      else (parseNum (c :: rest)).map (fun r => (Json.num r.1, r.2))

/-- Object body after the opening brace. -/
def parseObjBody : Nat → Str → Option (Json × Str)
  | 0, _ => none
  | fuel + 1, s =>
    match dropJWs s with
    | [] => none
    | c :: rest =>
      if c = rbrace then some (Json.obj [], rest)
      else parseMembers fuel (c :: rest) []

/-- Object members: string key, colon, value, then comma or close. -/
def parseMembers : Nat → Str → List (Str × Json) → Option (Json × Str)
  | 0, _, _ => none
  | fuel + 1, s, acc =>
    match dropJWs s with
    | [] => none
    | c :: rest =>
      if c = dq then
        match parseStrBody (rest.length + 1) rest with
        | none => none
        | some (key, rest2) =>
          match dropJWs rest2 with
          | ':' :: rest4 =>
            match parseVal fuel rest4 with
            | none => none
            | some (v, rest5) =>
              match dropJWs rest5 with
              | ',' :: rest7 => parseMembers fuel rest7 (aset key v acc)
              | c2 :: rest7 =>
                if c2 = rbrace then some (Json.obj (aset key v acc), rest7) else none
              | [] => none
          | _ => none
      else none

/-- Array body after the opening bracket. -/
def parseArrBody : Nat → Str → Option (Json × Str)
  | 0, _ => none
  | fuel + 1, s =>
    match dropJWs s with
    | [] => none
    | c :: rest =>
      if c = ']' then some (Json.arr [], rest)
      else parseElems fuel (c :: rest) []

/-- Array elements: value, then comma or close. -/
def parseElems : Nat → Str → List Json → Option (Json × Str)
  | 0, _, _ => none
  | fuel + 1, s, acc =>
    match parseVal fuel s with
    | none => none
    | some (v, rest) =>
      match dropJWs rest with
      | ',' :: rest3 => parseElems fuel rest3 (acc ++ [v])
      | c :: rest3 => if c = ']' then some (Json.arr (acc ++ [v]), rest3) else none
      | [] => none

end

/-- Python json.loads: parse one value, allow trailing whitespace only;
    none models a raised ValueError. -/
def json_loads (s : Str) : Option Json :=
  match parseVal (2 * s.length + 2) s with
  | some (v, rest) => if dropJWs rest = [] then some v else none
  | none => none

/-- The fence stripping of _safe_json_loads/_safe_json_object (lines
    101-103, 116-118): when the stripped text starts with three backticks,
    remove a leading three-backticks + ASCII letters + newline if present,
    then remove a trailing newline + three backticks if present (the input
    is already stripped, so the $ anchor is the end of the string). -/
def pyFenceStrip (txt : Str) : Str :=
  if txt.take 3 = [btick, btick, btick] then
    let afterTicks := txt.drop 3
    let letters := afterTicks.takeWhile Char.isAlpha
    let t1 := match afterTicks.drop letters.length with
      | '\n' :: r => r
      | _ => txt
    if 4 ≤ t1.length ∧ t1.drop (t1.length - 4) = ['\n', btick, btick, btick] then
      t1.take (t1.length - 4)
    else t1
  else txt

def charAt (s : Str) (i : Nat) : Option Char := (s.drop i).head?

/-- The index reached from i after skipping regex \s characters. -/
def wsSkipFrom (s : Str) (i : Nat) : Nat := i + ((s.drop i).takeWhile pySpace).length

/-- The largest position m ≥ k holding a closing brace that is followed
    (after \s*) by a closing bracket; returns that bracket's position.
    This is the backtracking of the greedy ".*}\s*\]" tail of
    JSON_ARRAY_EXTRACT (line 86). -/
def arrayCloseFrom (s : Str) (k : Nat) : Option Nat :=
  (List.range s.length).reverse.findSome? (fun m =>
    if k ≤ m ∧ charAt s m = some rbrace then
      match charAt s (wsSkipFrom s (m + 1)) with
      | some c => if c = ']' then some (wsSkipFrom s (m + 1)) else none
      | none => none
    else none)

/-- re.search of JSON_ARRAY_EXTRACT = "\[\s*{.*}\s*\]" with DOTALL:
    leftmost start position whose pattern match succeeds, greedy ".*".
    Returns the matched substring. -/
def arrayExtract (s : Str) : Option Str :=
  (List.range s.length).findSome? (fun i =>
    if charAt s i = some '[' then
      let q := wsSkipFrom s (i + 1)
      if charAt s q = some lbrace then
        match arrayCloseFrom s (q + 1) with
        | some p => some (pySlice s i (p + 1))
        | none => none
      else none
    else none)

/-- llm_workflow._safe_json_loads (lines 99-111): strip, strip fences,
    replace the text by the JSON_ARRAY_EXTRACT match when the search
    succeeds, decode once, and return the value only when it is a list. -/
def _safe_json_loads (raw : Str) : Option (List Json) :=
  let txt := pyStrip raw
  let txt1 := pyFenceStrip txt
  let txt2 := match arrayExtract txt1 with
    | some m => m
    | none => txt1
  match json_loads txt2 with
  | some (Json.arr xs) => some xs
  | _ => none

/-- llm_workflow._safe_json_object (lines 114-123): strip, strip fences,
    decode directly, and return the value only when it is an object.  No
    substring search is performed (JSON_OBJECT_EXTRACT on line 87 is never
    used). -/
def _safe_json_object (raw : Str) : Option (List (Str × Json)) :=
  let txt := pyStrip raw
  let txt1 := pyFenceStrip txt
  match json_loads txt1 with
  | some (Json.obj ms) => some ms
  | _ => none

/-- Modelled from the claim's words, for comparison with the code: after
    fence stripping, attempt direct decoding; on failure search the text
    for the first well-formed braced region decoding to an object (ordered
    by start position, then end position) and return it; none only when
    every attempt fails. -/
def claimPolicyObject (raw : Str) : Option (List (Str × Json)) :=
  let txt := pyFenceStrip (pyStrip raw)
  match json_loads txt with
  | some (Json.obj ms) => some ms
  | _ =>
    (List.range (txt.length + 1)).findSome? (fun i =>
      (List.range (txt.length + 1)).findSome? (fun j =>
        if i ≤ j then
          match json_loads (pySlice txt i j) with
          | some (Json.obj ms) => some ms
          | _ => none
        else none))

/-- Amended description of _safe_json_loads: the greedy array-pattern
    search is applied before any decoding; whatever it selects (its match,
    else the whole fenced-stripped text) is decoded exactly once and must
    be a list. -/
def parse_array_amended (raw : Str) : Option (List Json) :=
  let txt := pyFenceStrip (pyStrip raw)
  let candidate := (arrayExtract txt).getD txt
  match json_loads candidate with
  | some (Json.arr xs) => some xs
  | _ => none

/-- Amended description of _safe_json_object: direct decoding only, no
    region search. -/
def parse_object_amended (raw : Str) : Option (List (Str × Json)) :=
  match json_loads (pyFenceStrip (pyStrip raw)) with
  | some (Json.obj ms) => some ms
  | _ => none

/-! ### Basic list facts -/

lemma foldl_max_le (B : Int) (l : List Int) :
    ∀ v : Int, v ≤ B → (∀ x ∈ l, x ≤ B) → l.foldl max v ≤ B := by
  induction l with
  | nil => intro v hv _; simpa using hv
  | cons x xs ih =>
    intro v hv hl
    simp only [List.foldl_cons]
    exact ih (max v x) (max_le hv (hl x (by simp))) (fun y hy => hl y (by simp [hy]))

lemma le_foldl_max (l : List Int) : ∀ v : Int, v ≤ l.foldl max v := by
  induction l with
  | nil => intro v; simp
  | cons x xs ih =>
    intro v
    simp only [List.foldl_cons]
    exact le_trans (le_max_left v x) (ih (max v x))

lemma pySlice_length (s : Str) (a b : Nat) :
    (pySlice s a b).length = min (b - a) (s.length - a) := by
  simp [pySlice]

lemma rfind1_bounds (a : Char) (s : Str) :
    -1 ≤ rfind1 a s ∧ rfind1 a s + 1 ≤ (s.length : Int) := by
  induction s with
  | nil => simp [rfind1]
  | cons c rest ih =>
    obtain ⟨ih1, ih2⟩ := ih
    simp only [rfind1, List.length_cons]
    split_ifs <;> norm_num <;> push_cast <;> omega

lemma rfind2_bounds (a b : Char) (s : Str) :
    -1 ≤ rfind2 a b s ∧ (0 ≤ rfind2 a b s → rfind2 a b s + 2 ≤ (s.length : Int)) := by
  induction s with
  | nil => simp [rfind2]
  | cons c rest ih =>
    obtain ⟨ih1, ih2⟩ := ih
    simp only [rfind2, List.length_cons]
    split_ifs with h1
    · norm_num
      constructor
      · omega
      · intro _; have := ih2 h1; push_cast; omega
    · cases rest with
      | nil => simp
      | cons d tail =>
        simp only [List.length_cons] at ih1 ih2 ⊢
        split_ifs <;> norm_num <;> push_cast <;> omega

lemma rfind2_add_one_le (a b : Char) (s : Str) : rfind2 a b s + 1 ≤ (s.length : Int) := by
  obtain ⟨h1, h2⟩ := rfind2_bounds a b s
  by_cases hr : 0 ≤ rfind2 a b s
  · have := h2 hr; omega
  · omega

/-! ### Fallback splitter: split point and cursor progress -/

lemma splitPointOf_le (norm : Str) (cutMin cutMax cursor : Nat) :
    splitPointOf norm cutMin cutMax cursor ≤ min (cursor + cutMax) norm.length := by
  simp only [splitPointOf]
  split_ifs with h
  · split
    · omega
    · next v vs hfil =>
      have hcur : cursor ≤ min (cursor + cutMax) norm.length := by omega
      have hwlen : (pySlice norm cursor (min (cursor + cutMax) norm.length)).length
          = min (cursor + cutMax) norm.length - cursor := by
        rw [pySlice_length]; omega
      set w := pySlice norm cursor (min (cursor + cutMax) norm.length) with hw
      have hcand : ∀ x ∈ [rfind2 '\n' '\n' w, rfind1 '。' w, rfind1 '、' w],
          x + 1 ≤ (w.length : Int) := by
        intro x hx
        simp only [List.mem_cons, List.not_mem_nil, or_false] at hx
        rcases hx with rfl | rfl | rfl
        · exact rfind2_add_one_le _ _ w
        · exact (rfind1_bounds _ w).2
        · exact (rfind1_bounds _ w).2
      have hvmem : ∀ x ∈ v :: vs, x + 1 ≤ (w.length : Int) := by
        intro x hx
        have : x ∈ List.filter (fun c => decide (c ≥ (cutMin : Int) - 1))
            [rfind2 '\n' '\n' w, rfind1 '。' w, rfind1 '、' w] := by
          rw [hfil]; exact hx
        exact hcand x (List.mem_filter.mp this).1
      have hm : vs.foldl max v ≤ (w.length : Int) - 1 :=
        foldl_max_le _ vs v (by have := hvmem v (by simp); omega)
          (fun x hx => by have := hvmem x (by simp [hx]); omega)
      rw [hwlen] at hm
      omega
  · omega

lemma lt_splitPointOf (norm : Str) (cutMin cutMax cursor : Nat)
    (hmin : 1 ≤ cutMin) (hmax : 1 ≤ cutMax) (hcur : cursor < norm.length) :
    cursor < splitPointOf norm cutMin cutMax cursor := by
  simp only [splitPointOf]
  split_ifs with h
  · split
    · omega
    · next v vs hfil =>
      have hv : v ∈ v :: vs := by simp
      rw [← hfil] at hv
      have hvp : v ≥ (cutMin : Int) - 1 := by
        have := (List.mem_filter.mp hv).2
        simpa using this
      have := le_foldl_max vs v
      omega
  · omega

lemma nextCursorOf_bounds (norm : Str) (cutMin cutMax cursor : Nat)
    (hmax : 1 ≤ cutMax) (hcur : cursor < norm.length) :
    cursor < nextCursorOf norm cutMin cutMax cursor ∧
    nextCursorOf norm cutMin cutMax cursor ≤ norm.length := by
  simp only [nextCursorOf]
  split_ifs with h
  · exact ⟨h, le_trans (splitPointOf_le norm cutMin cutMax cursor) (by omega)⟩
  · omega

lemma splitGo_isSome (norm : Str) (cutMin cutMax : Nat) (hmax : 1 ≤ cutMax) :
    ∀ fuel cursor, cursor ≤ norm.length → norm.length < cursor + fuel →
      (splitGo norm cutMin cutMax fuel cursor).isSome = true := by
  intro fuel
  induction fuel with
  | zero => intro cursor h1 h2; omega
  | succ n ih =>
    intro cursor h1 h2
    simp only [splitGo]
    by_cases h : cursor < norm.length
    · simp only [if_pos h]
      obtain ⟨hlt, hle⟩ := nextCursorOf_bounds norm cutMin cutMax cursor hmax h
      have hrec := ih (nextCursorOf norm cutMin cutMax cursor) hle (by omega)
      cases hgo : splitGo norm cutMin cutMax n (nextCursorOf norm cutMin cutMax cursor) with
      | none => rw [hgo] at hrec; simp at hrec
      | some tail =>
        dsimp only
        split_ifs <;> simp
    · simp [if_neg h]

/-! ### C10 -/

/-- C10: _split_fallback_chunk terminates for every input with cut_max ≥ 1:
    each loop iteration strictly increases the cursor and keeps it bounded
    by the (normalized) text length, so the fuelled loop with fuel
    length+1 completes (returns some). -/
theorem C10_fallback_terminates (text : Str) (cutMin cutMax : Nat) (h : 1 ≤ cutMax) :
    (∀ cursor, cursor < (pyNormalize text).length →
      cursor < nextCursorOf (pyNormalize text) cutMin cutMax cursor ∧
      nextCursorOf (pyNormalize text) cutMin cutMax cursor ≤ (pyNormalize text).length) ∧
    (splitGo (pyNormalize text) cutMin cutMax ((pyNormalize text).length + 1) 0).isSome = true := by
  constructor
  · intro cursor hcur
    exact nextCursorOf_bounds (pyNormalize text) cutMin cutMax cursor h hcur
  · exact splitGo_isSome (pyNormalize text) cutMin cutMax h _ 0 (by omega) (by omega)

/-- Witness for C10 at text "ab", cut_min 1, cut_max 2. -/
theorem C10_fallback_terminates_witness :
    1 ≤ 2 ∧
    (splitGo (pyNormalize ("ab".toList)) 1 2 ((pyNormalize ("ab".toList)).length + 1) 0).isSome = true :=
  ⟨by decide, (C10_fallback_terminates ("ab".toList) 1 2 (by decide)).2⟩

/-! ### C8 -/

/-- C8 counterexample: at target 40 the code first clamps the target to
    max(80, target) = 80 and returns (48, 128, 60, 100), while the claim's
    formulas applied to 40 itself give (40, 90, 50, 80). -/
theorem C8_counterexample :
    derive_cut_parameters 40 = (48, 128, 60, 100) ∧
    (max 40 (3 * 40 / 5), max (max 40 (3 * 40 / 5) + 50) (8 * 40 / 5),
      max 50 (3 * 40 / 4), max (max 50 (3 * 40 / 4) + 30) (5 * 40 / 4)) =
      ((40 : Nat), (90 : Nat), (50 : Nat), (80 : Nat)) ∧
    ((48, 128, 60, 100) : Nat × Nat × Nat × Nat) ≠ (40, 90, 50, 80) := by
  decide

/-- C8 (amended): derive_cut_parameters first clamps the target to
    max(80, target); the four bounds then follow the fixed ratio policy
    (with Python's int() floor) applied to the clamped target, and the
    structural floors hold: hard-min ≥ 40, hard-max ≥ hard-min + 50,
    ideal-min ≥ 50, ideal-max ≥ ideal-min + 30. -/
theorem C8_param_policy (target : Int) :
    derive_cut_parameters target = derive_cut_parameters (max 80 target) ∧
    derive_cut_parameters target =
      (max 40 (3 * (max 80 target).toNat / 5),
       max (max 40 (3 * (max 80 target).toNat / 5) + 50) (8 * (max 80 target).toNat / 5),
       max 50 (3 * (max 80 target).toNat / 4),
       max (max 50 (3 * (max 80 target).toNat / 4) + 30) (5 * (max 80 target).toNat / 4)) ∧
    40 ≤ (derive_cut_parameters target).1 ∧
    (derive_cut_parameters target).1 + 50 ≤ (derive_cut_parameters target).2.1 ∧
    50 ≤ (derive_cut_parameters target).2.2.1 ∧
    (derive_cut_parameters target).2.2.1 + 30 ≤ (derive_cut_parameters target).2.2.2 := by
  refine ⟨?_, rfl, ?_, ?_, ?_, ?_⟩
  · unfold derive_cut_parameters
    rw [← max_assoc, max_self]
  all_goals simp only [derive_cut_parameters] <;> omega

/-! ### C4 -/

/-- C4: the offset reconciler maps a negative report to window_start,
    returns a report above 1.5× the window size unchanged, and shifts a
    local report within [0, size] by window_start; the reported local span
    (start -1, end 40) inside window [1000, 1300) reconciles to the
    absolute span (1000, 1040) after the assembler's fixups. -/
theorem C4_reconcile (v ws we S : Int) (hS : 0 ≤ S) :
    (v < 0 → _detect_global_span v ws we S = ws) ∧
    (2 * v > 3 * S → _detect_global_span v ws we S = v) ∧
    (0 ≤ v → v ≤ S → _detect_global_span v ws we S = ws + v) ∧
    reconcileSpan (-1) 40 1000 300 5 = (1000, 1040) := by
  refine ⟨?_, ?_, ?_, by decide⟩
  · intro h; simp [_detect_global_span, h]
  · intro h
    have h1 : ¬ v < 0 := by omega
    simp [_detect_global_span, h1, h]
  · intro h0 h1
    have h2 : ¬ v < 0 := by omega
    have h3 : ¬ 2 * v > 3 * S := by omega
    simp [_detect_global_span, h2, h3]

/-- Witness for C4 at v = -5, window [1000, 1300), size 300. -/
theorem C4_reconcile_witness :
    (0 : Int) ≤ 300 ∧ _detect_global_span (-5) 1000 1300 300 = 1000 :=
  ⟨by decide, (C4_reconcile (-5) 1000 1300 300 (by decide)).1 (by decide)⟩

/-! ### Windowing: bounds, progress, coverage -/

lemma chunkEndOf_le (t : Str) (window i : Nat) : chunkEndOf t window i ≤ t.length := by
  simp only [chunkEndOf]
  split_ifs with h
  · have hb := (rfind2_bounds '\n' '\n' (pySlice t i (min (i + window) t.length))).2
    have hlen := pySlice_length t i (min (i + window) t.length)
    have h0 : (0:Int) ≤ rfind2 '\n' '\n' (pySlice t i (min (i + window) t.length)) := by omega
    have := hb h0
    omega
  · omega

lemma chunkEndOf_ge (t : Str) (window i : Nat) (hi : i ≤ t.length) :
    i ≤ chunkEndOf t window i := by
  simp only [chunkEndOf]
  split_ifs with h <;> omega

lemma lt_chunkEndOf (t : Str) (window i : Nat) (hw : 1 ≤ window) (hi : i < t.length) :
    i < chunkEndOf t window i := by
  simp only [chunkEndOf]
  split_ifs with h
  · have hb := (rfind2_bounds '\n' '\n' (pySlice t i (min (i + window) t.length))).2
    have hlen := pySlice_length t i (min (i + window) t.length)
    have h0 : (0:Int) ≤ rfind2 '\n' '\n' (pySlice t i (min (i + window) t.length)) := by omega
    have := hb h0
    omega
  · omega

lemma chunkGo_wf (t : Str) (window overlap : Nat) :
    ∀ fuel i, ∀ ch ∈ chunkGo t window overlap fuel i,
      ch.1 < t.length ∧ ch.1 ≤ ch.2 ∧ ch.2 ≤ t.length ∧ ch.2 = chunkEndOf t window ch.1 := by
  intro fuel
  induction fuel with
  | zero => intro i ch hch; simp [chunkGo] at hch
  | succ n ih =>
    intro i ch hch
    simp only [chunkGo] at hch
    by_cases h : i < t.length
    · rw [if_pos h] at hch
      by_cases he : chunkEndOf t window i ≥ t.length
      · rw [if_pos he] at hch
        simp only [List.mem_singleton] at hch
        subst hch
        exact ⟨h, chunkEndOf_ge t window i (le_of_lt h), chunkEndOf_le t window i, rfl⟩
      · rw [if_neg he] at hch
        rcases List.mem_cons.mp hch with rfl | hmem
        · exact ⟨h, chunkEndOf_ge t window i (le_of_lt h), chunkEndOf_le t window i, rfl⟩
        · exact ih _ ch hmem
    · rw [if_neg h] at hch; simp at hch

lemma chunkGo_head (t : Str) (window overlap : Nat) :
    ∀ fuel i x, (chunkGo t window overlap fuel i).head? = some x → x.1 = i := by
  intro fuel i x hx
  cases fuel with
  | zero => simp [chunkGo] at hx
  | succ n =>
    simp only [chunkGo] at hx
    by_cases h : i < t.length
    · rw [if_pos h] at hx
      by_cases he : chunkEndOf t window i ≥ t.length
      · rw [if_pos he] at hx
        simp only [List.head?_cons, Option.some.injEq] at hx
        rw [← hx]
      · rw [if_neg he] at hx
        simp only [List.head?_cons, Option.some.injEq] at hx
        rw [← hx]
    · rw [if_neg h] at hx; simp at hx

lemma chunkGo_chain (t : Str) (window overlap : Nat) :
    ∀ fuel i, List.Chain' (fun a b : Nat × Nat => b.1 = max (a.1 + 1) (a.2 - overlap))
      (chunkGo t window overlap fuel i) := by
  intro fuel
  induction fuel with
  | zero => intro i; simp [chunkGo]
  | succ n ih =>
    intro i
    simp only [chunkGo]
    by_cases h : i < t.length
    · rw [if_pos h]
      by_cases he : chunkEndOf t window i ≥ t.length
      · rw [if_pos he]; simp
      · rw [if_neg he]
        rw [List.chain'_cons']
        refine ⟨?_, ih _⟩
        intro y hy
        exact chunkGo_head t window overlap n _ y (Option.mem_def.mp hy)
    · rw [if_neg h]; simp

lemma chunkGo_cover (t : Str) (window overlap : Nat) (hw : 1 ≤ window) :
    ∀ fuel i, t.length ≤ i + fuel →
      ∀ k, i ≤ k → k < t.length →
        ∃ ch ∈ chunkGo t window overlap fuel i, ch.1 ≤ k ∧ k < ch.2 := by
  intro fuel
  induction fuel with
  | zero => intro i hf k h1 h2; omega
  | succ n ih =>
    intro i hf k h1 h2
    have h : i < t.length := by omega
    simp only [chunkGo, if_pos h]
    by_cases he : chunkEndOf t window i ≥ t.length
    · rw [if_pos he]
      exact ⟨(i, chunkEndOf t window i), by simp, h1, by omega⟩
    · rw [if_neg he]
      by_cases hk : k < chunkEndOf t window i
      · exact ⟨(i, chunkEndOf t window i), by simp, h1, hk⟩
      · have hprog := lt_chunkEndOf t window i hw h
        have hnext : max (i + 1) (chunkEndOf t window i - overlap) ≤ k := by omega
        obtain ⟨ch, hm, hc⟩ := ih (max (i + 1) (chunkEndOf t window i - overlap)) (by omega) k hnext h2
        exact ⟨ch, List.mem_cons_of_mem _ hm, hc⟩

/-! ### C6 -/

/-- C6 counterexample: for text "abc\n\nd" with window 6 and overlap 2 the
    proposed end of the very first window, min(0+6, 6), already reaches the
    text end, yet the paragraph-break snap is still applied (the last
    "\n\n" is at 3 ≥ int(6*0.5)), producing windows [(0,3), (1,6)] instead
    of the claim's single full window [(0,6)]. -/
theorem C6_counterexample :
    chunk_for_llm ("abc\n\nd".toList) 6 2 = [(0, 3), (1, 6)] ∧
    min (0 + 6) ("abc\n\nd".toList).length = ("abc\n\nd".toList).length ∧
    [(0, 3), (1, 6)] ≠ [((0 : Nat), (6 : Nat))] := by decide

/-- C6 (amended): in chunk_for_llm the paragraph-break snap is applied
    unconditionally: every produced window (start, end) has
    end = chunkEndOf start, where chunkEndOf snaps the proposed end
    min(start+window, n) back to the last double newline whenever that
    break sits at or after int(window*0.5) — also when the proposed end
    already reaches len(text).  Consecutive window starts follow
    max(start+1, end-overlap); the first window starts at 0; an empty
    (normalized) text yields no windows. -/
theorem C6_window_snap (text : Str) (window overlap : Nat) :
    (∀ ch ∈ chunk_for_llm text window overlap,
      ch.2 = chunkEndOf (pyNormalize text) window ch.1) ∧
    List.Chain' (fun a b : Nat × Nat => b.1 = max (a.1 + 1) (a.2 - overlap))
      (chunk_for_llm text window overlap) ∧
    (0 < (pyNormalize text).length →
      (chunk_for_llm text window overlap).head? =
        some (0, chunkEndOf (pyNormalize text) window 0)) ∧
    ((pyNormalize text).length = 0 → chunk_for_llm text window overlap = []) := by
  refine ⟨?_, ?_, ?_, ?_⟩
  · intro ch hch
    exact (chunkGo_wf (pyNormalize text) window overlap _ 0 ch hch).2.2.2
  · exact chunkGo_chain (pyNormalize text) window overlap _ 0
  · intro hpos
    simp only [chunk_for_llm, chunkGo, if_pos hpos]
    by_cases he : chunkEndOf (pyNormalize text) window 0 ≥ (pyNormalize text).length
    · rw [if_pos he]; rfl
    · rw [if_neg he]; rfl
  · intro hzero
    simp only [chunk_for_llm, chunkGo]
    rw [if_neg (by omega)]

/-- Witness for C6 at text "ab", window 5, overlap 1. -/
theorem C6_window_snap_witness :
    0 < (pyNormalize ("ab".toList)).length ∧
    (chunk_for_llm ("ab".toList) 5 1).head? =
      some (0, chunkEndOf (pyNormalize ("ab".toList)) 5 0) :=
  ⟨by decide, (C6_window_snap ("ab".toList) 5 1).2.2.1 (by decide)⟩

/-! ### Facts about Python strip -/

lemma leadWs_le_of_nonspace :
    ∀ (l : Str) (j : Nat) (h : j < l.length), pySpace (l.get ⟨j, h⟩) = false →
      (l.takeWhile pySpace).length ≤ j := by
  intro l
  induction l with
  | nil => intro j h _; simp at h
  | cons c rest ih =>
    intro j h hns
    by_cases hc : pySpace c = true
    · rw [List.takeWhile_cons_of_pos hc]
      cases j with
      | zero => simp only [List.get] at hns; rw [hns] at hc; cases hc
      | succ j' =>
        have := ih j' (by simpa using h) (by simpa using hns)
        simpa using Nat.succ_le_succ this
    · rw [List.takeWhile_cons_of_neg hc]
      simp

lemma length_dropWhile (p : Char → Bool) (l : Str) :
    (l.dropWhile p).length = l.length - (l.takeWhile p).length := by
  have h := congrArg List.length (List.takeWhile_append_dropWhile p l)
  rw [List.length_append] at h
  have := l.takeWhile p |>.length
  omega

lemma length_pyLstrip (l : Str) :
    (pyLstrip l).length = l.length - (l.takeWhile pySpace).length :=
  length_dropWhile pySpace l

lemma length_pyRstrip (l : Str) :
    (pyRstrip l).length = l.length - (l.reverse.takeWhile pySpace).length := by
  simp only [pyRstrip, List.length_reverse]
  rw [length_dropWhile, List.length_reverse]

lemma lt_rstripLen_of_nonspace (l : Str) (j : Nat) (h : j < l.length)
    (hns : pySpace (l.get ⟨j, h⟩) = false) : j < (pyRstrip l).length := by
  have hrev : l.reverse.get ⟨l.length - 1 - j, by rw [List.length_reverse]; omega⟩ = l.get ⟨j, h⟩ := by
    rw [List.get_eq_getElem, List.get_eq_getElem, List.getElem_reverse]
    have hidx : l.length - 1 - (l.length - 1 - j) = j := by omega
    simp only [hidx]
  have := leadWs_le_of_nonspace l.reverse (l.length - 1 - j)
    (by rw [List.length_reverse]; omega) (by rw [hrev]; exact hns)
  rw [length_pyRstrip]
  omega

lemma takeWhile_append_of_exists (p : Char → Bool) :
    ∀ (l₁ l₂ : Str), (∃ x ∈ l₁, p x = false) →
      (l₁ ++ l₂).takeWhile p = l₁.takeWhile p := by
  intro l₁
  induction l₁ with
  | nil => intro l₂ hx; simp at hx
  | cons a l₁ ih =>
    intro l₂ hx
    by_cases ha : p a = true
    · rw [List.cons_append, List.takeWhile_cons_of_pos ha, List.takeWhile_cons_of_pos ha]
      obtain ⟨x, hm, hpx⟩ := hx
      rcases List.mem_cons.mp hm with rfl | hm'
      · rw [hpx] at ha; cases ha
      · rw [ih l₂ ⟨x, hm', hpx⟩]
    · rw [List.cons_append]
      rw [List.takeWhile_cons_of_neg (by simpa using ha),
        List.takeWhile_cons_of_neg (by simpa using ha)]

/-- The first element of a nonempty dropWhile result fails the predicate. -/
lemma dropWhile_head_false (p : Char → Bool) (l : Str) (x : Char) (xs : List Char)
    (hd : l.dropWhile p = x :: xs) : p x = false := by
  have hh := List.head?_dropWhile_not p l
  rw [hd] at hh
  exact hh

lemma revLead_pyLstrip (l : Str) (h : pyLstrip l ≠ []) :
    ((pyLstrip l).reverse.takeWhile pySpace).length = (l.reverse.takeWhile pySpace).length := by
  have hsplit : l = l.takeWhile pySpace ++ pyLstrip l :=
    (List.takeWhile_append_dropWhile pySpace l).symm
  have hrev : l.reverse = (pyLstrip l).reverse ++ (l.takeWhile pySpace).reverse := by
    conv_lhs => rw [hsplit]
    rw [List.reverse_append]
  obtain ⟨x, xs, hx⟩ := List.exists_cons_of_ne_nil h
  have hxns : pySpace x = false := dropWhile_head_false pySpace l x xs hx
  have hex : ∃ y ∈ (pyLstrip l).reverse, pySpace y = false :=
    ⟨x, List.mem_reverse.mpr (by rw [hx]; simp), hxns⟩
  rw [hrev, takeWhile_append_of_exists pySpace _ _ hex]

lemma length_pyStrip (l : Str) :
    (pyStrip l).length =
      (pyRstrip l).length - (l.length - (pyLstrip l).length) := by
  by_cases h : pyLstrip l = []
  · have hlen0 : (pyLstrip l).length = 0 := by rw [h]; rfl
    have : pyStrip l = [] := by simp [pyStrip, h, pyRstrip]
    rw [this]
    have := length_pyRstrip l
    have h2 : (l.reverse.takeWhile pySpace).length ≤ l.reverse.length := by
      have := List.takeWhile_prefix (l := l.reverse) pySpace
      exact this.length_le
    rw [List.length_reverse] at h2
    simp only [List.length_nil]
    omega
  · have hJ := revLead_pyLstrip l h
    have h1 : (pyStrip l).length =
        (pyLstrip l).length - ((pyLstrip l).reverse.takeWhile pySpace).length := by
      simp only [pyStrip]
      exact length_pyRstrip (pyLstrip l)
    have h2 := length_pyRstrip l
    have h3 := length_pyLstrip l
    have h4 : ((pyLstrip l).reverse.takeWhile pySpace).length ≤ (pyLstrip l).length := by
      have := List.takeWhile_prefix (l := (pyLstrip l).reverse) pySpace
      have h5 := this.length_le
      rw [List.length_reverse] at h5
      exact h5
    have h6 : (l.takeWhile pySpace).length ≤ l.length := by
      have := List.takeWhile_prefix (l := l) pySpace
      exact this.length_le
    omega

/-- If position j of l holds a non-whitespace character, then j lies inside
    the stripped region [leading, trailing_end) and the strip is nonempty. -/
lemma strip_window (l : Str) (j : Nat) (h : j < l.length)
    (hns : pySpace (l.get ⟨j, h⟩) = false) :
    l.length - (pyLstrip l).length ≤ j ∧ j < (pyRstrip l).length ∧ pyStrip l ≠ [] := by
  have hlead := leadWs_le_of_nonspace l j h hns
  have hl := length_pyLstrip l
  have htrail := lt_rstripLen_of_nonspace l j h hns
  have hstrip := length_pyStrip l
  refine ⟨by omega, htrail, ?_⟩
  intro hemp
  have : (pyStrip l).length = 0 := by rw [hemp]; rfl
  omega

/-- A string whose strip is empty holds only whitespace. -/
lemma space_of_strip_nil (l : Str) (hemp : pyStrip l = []) (j : Nat) (h : j < l.length) :
    pySpace (l.get ⟨j, h⟩) = true := by
  by_contra hns
  have := (strip_window l j h (by simpa using hns)).2.2
  exact this hemp

lemma dropWhile_idem (p : Char → Bool) (l : Str) :
    (l.dropWhile p).dropWhile p = l.dropWhile p := by
  cases hd : l.dropWhile p with
  | nil => rfl
  | cons x xs =>
    have hx : p x = false := dropWhile_head_false p l x xs hd
    rw [List.dropWhile_cons_of_neg (by simp [hx])]

lemma pyLstrip_idem (l : Str) : pyLstrip (pyLstrip l) = pyLstrip l :=
  dropWhile_idem pySpace l

lemma pyRstrip_idem (l : Str) : pyRstrip (pyRstrip l) = pyRstrip l := by
  simp only [pyRstrip, List.reverse_reverse]
  rw [dropWhile_idem]

lemma pyRstrip_prefix (l : Str) : pyRstrip l <+: l := by
  have h := List.dropWhile_suffix (l := l.reverse) pySpace
  have := List.reverse_prefix.mpr h
  rwa [List.reverse_reverse] at this

lemma pyLstrip_pyRstrip_pyLstrip (l : Str) :
    pyLstrip (pyRstrip (pyLstrip l)) = pyRstrip (pyLstrip l) := by
  cases hr : pyRstrip (pyLstrip l) with
  | nil => rfl
  | cons x xs =>
    have hpre : pyRstrip (pyLstrip l) <+: pyLstrip l := pyRstrip_prefix (pyLstrip l)
    rw [hr] at hpre
    obtain ⟨t, ht⟩ := hpre
    have hd : l.dropWhile pySpace = x :: (xs ++ t) := by
      have : pyLstrip l = x :: (xs ++ t) := by rw [← ht]; simp
      exact this
    have hxns : pySpace x = false := dropWhile_head_false pySpace l x (xs ++ t) hd
    simp only [pyLstrip]
    rw [List.dropWhile_cons_of_neg (by simp [hxns])]

lemma pyStrip_idem (l : Str) : pyStrip (pyStrip l) = pyStrip l := by
  simp only [pyStrip]
  rw [pyLstrip_pyRstrip_pyLstrip, pyRstrip_idem]

/-! ### Facts about pyNormalize and pySlice -/

lemma pyNormalize_cons_ne (c : Char) (rest : Str) (hc : c ≠ '\r') :
    pyNormalize (c :: rest) = c :: pyNormalize rest := by
  cases rest with
  | nil => simp [pyNormalize, hc]
  | cons d rest2 => simp [pyNormalize, hc]

lemma pyNormalize_of_no_cr (l : Str) (h : '\r' ∉ l) : pyNormalize l = l := by
  induction l with
  | nil => rfl
  | cons c rest ih =>
    have hc : c ≠ '\r' := by
      intro hcc; exact h (by rw [hcc]; simp)
    have hrest : '\r' ∉ rest := fun hm => h (List.mem_cons_of_mem c hm)
    rw [pyNormalize_cons_ne c rest hc, ih hrest]

lemma pyNormalize_length_le (l : Str) : (pyNormalize l).length ≤ l.length := by
  induction l using pyNormalize.induct with
  | case1 => simp [pyNormalize]
  | case2 rest ih =>
    simp only [pyNormalize, List.length_cons]
    omega
  | case3 rest hne ih =>
    have : pyNormalize ('\r' :: rest) = '\n' :: pyNormalize rest := by
      cases rest with
      | nil => rfl
      | cons d rest2 =>
        by_cases hd : d = '\n'
        · exact absurd (by rw [hd]) (hne rest2)
        · simp [pyNormalize, hd]
    rw [this]
    simp only [List.length_cons]
    omega
  | case4 c rest hne hc ih =>
    rw [pyNormalize_cons_ne c rest (fun hh => hc hh)]
    simp only [List.length_cons]
    omega

lemma pySlice_get (s : Str) (a b j : Nat) (h : j < (pySlice s a b).length)
    (h2 : a + j < s.length) :
    (pySlice s a b).get ⟨j, h⟩ = s.get ⟨a + j, h2⟩ := by
  simp only [pySlice] at h ⊢
  rw [List.get_eq_getElem, List.get_eq_getElem]
  simp only [List.getElem_take, List.getElem_drop]

lemma mem_pySlice (s : Str) (a b : Nat) (x : Char) (h : x ∈ pySlice s a b) : x ∈ s := by
  simp only [pySlice] at h
  exact List.Sublist.mem (List.Sublist.mem h (List.take_sublist _ _)) (List.drop_sublist _ _)

/-! ### Fallback splitter: emitted segments and coverage -/

lemma nextCursorOf_eq_sp (norm : Str) (cutMin cutMax cursor : Nat)
    (h : cursor < splitPointOf norm cutMin cutMax cursor) :
    nextCursorOf norm cutMin cutMax cursor = splitPointOf norm cutMin cutMax cursor := by
  simp only [nextCursorOf]
  rw [if_pos h]

/-- The fuelled split loop, with enough fuel and cut_min, cut_max ≥ 1,
    returns segments that lie inside [cursor, length], carry their stripped
    text with length end - start, and jointly cover every non-whitespace
    position at or past the cursor. -/
lemma splitGo_bundle (norm : Str) (cutMin cutMax : Nat) (hmin : 1 ≤ cutMin) (hmax : 1 ≤ cutMax) :
    ∀ fuel cursor, cursor ≤ norm.length → norm.length < cursor + fuel →
      ∃ l, splitGo norm cutMin cutMax fuel cursor = some l ∧
        (∀ s ∈ l, cursor ≤ s.1 ∧ s.1 ≤ s.2.1 ∧ s.2.1 ≤ norm.length ∧
          s.2.2.length = s.2.1 - s.1 ∧ pyStrip s.2.2 = s.2.2 ∧ s.2.2 ≠ []) ∧
        (∀ k (hk : k < norm.length), cursor ≤ k → pySpace (norm.get ⟨k, hk⟩) = false →
          ∃ s ∈ l, s.1 ≤ k ∧ k < s.2.1) := by
  intro fuel
  induction fuel with
  | zero => intro cursor h1 h2; omega
  | succ n ih =>
    intro cursor h1 h2
    by_cases hcur : cursor < norm.length
    case neg =>
      refine ⟨[], ?_, by simp, ?_⟩
      · simp only [splitGo]; rw [if_neg hcur]
      · intro k hk hck _; omega
    case pos =>
      have hlt : cursor < splitPointOf norm cutMin cutMax cursor :=
        lt_splitPointOf norm cutMin cutMax cursor hmin hmax hcur
      have hle := splitPointOf_le norm cutMin cutMax cursor
      set sp := splitPointOf norm cutMin cutMax cursor with hsp
      have hsple : sp ≤ norm.length := le_trans hle (min_le_right _ _)
      have hnext : nextCursorOf norm cutMin cutMax cursor = sp := nextCursorOf_eq_sp _ _ _ _ hlt
      obtain ⟨tail, htail, hprops, hcov⟩ := ih sp hsple (by omega)
      set segRaw := pySlice norm cursor sp with hsegRaw
      have hsegLen : segRaw.length = sp - cursor := by
        rw [hsegRaw, pySlice_length]; omega
      have hgetSeg : ∀ k (hk : k < norm.length), cursor ≤ k → k < sp →
          pySpace (norm.get ⟨k, hk⟩) = false →
          ∃ hj : k - cursor < segRaw.length, pySpace (segRaw.get ⟨k - cursor, hj⟩) = false := by
        intro k hk hck hksp hns
        have hj : k - cursor < segRaw.length := by omega
        refine ⟨hj, ?_⟩
        have hgk : segRaw.get ⟨k - cursor, hj⟩ = norm.get ⟨cursor + (k - cursor), by omega⟩ :=
          pySlice_get norm cursor sp (k - cursor) hj (by omega)
        rw [hgk]
        have heq : norm.get ⟨cursor + (k - cursor), by omega⟩ = norm.get ⟨k, hk⟩ := by
          congr 1
          simp only [Fin.mk.injEq]
          omega
        rw [heq]
        exact hns
      by_cases hseg : pyStrip segRaw = []
      · refine ⟨tail, ?_, ?_, ?_⟩
        · simp only [splitGo]
          rw [if_pos hcur, hnext, htail]
          dsimp only
          rw [if_pos hseg]
        · intro s hs
          have := hprops s hs
          exact ⟨by omega, this.2⟩
        · intro k hk hck hns
          by_cases hksp : k < sp
          · obtain ⟨hj, hjs⟩ := hgetSeg k hk hck hksp hns
            exact absurd hseg (strip_window segRaw (k - cursor) hj hjs).2.2
          · exact hcov k hk (by omega) hns
      · refine ⟨(cursor + (segRaw.length - (pyLstrip segRaw).length),
                 (pyRstrip segRaw).length + cursor, pyStrip segRaw) :: tail, ?_, ?_, ?_⟩
        · simp only [splitGo]
          rw [if_pos hcur, hnext, htail]
          dsimp only
          rw [if_neg hseg]
        · intro s hs
          rcases List.mem_cons.mp hs with rfl | hmem
          · dsimp only
            have hpos : 0 < (pyStrip segRaw).length := List.length_pos.mpr hseg
            have hstripLen := length_pyStrip segRaw
            have hrle : (pyRstrip segRaw).length ≤ segRaw.length := by
              have := length_pyRstrip segRaw
              omega
            have hlle : (pyLstrip segRaw).length ≤ segRaw.length := by
              have := length_pyLstrip segRaw
              omega
            refine ⟨by omega, by omega, by omega, by omega, pyStrip_idem segRaw, hseg⟩
          · have := hprops s hmem
            exact ⟨by omega, this.2⟩
        · intro k hk hck hns
          by_cases hksp : k < sp
          · obtain ⟨hj, hjs⟩ := hgetSeg k hk hck hksp hns
            obtain ⟨hw1, hw2, _⟩ := strip_window segRaw (k - cursor) hj hjs
            refine ⟨(cursor + (segRaw.length - (pyLstrip segRaw).length),
                     (pyRstrip segRaw).length + cursor, pyStrip segRaw), by simp, ?_, ?_⟩
            · dsimp only
              omega
            · dsimp only
              omega
          · obtain ⟨s, hm, hc1, hc2⟩ := hcov k hk (by omega) hns
            exact ⟨s, List.mem_cons_of_mem _ hm, hc1, hc2⟩

/-- Segment-level properties of _split_fallback_chunk with cut_min,
    cut_max ≥ 1: every (start, end, text) has 0 ≤ start ≤ end ≤ length of
    the normalized window text (itself at most the raw window length), the
    text is its own strip of length end - start, and the segments cover
    every non-whitespace position of the normalized text. -/
lemma split_fallback_props (text : Str) (cutMin cutMax : Nat)
    (hmin : 1 ≤ cutMin) (hmax : 1 ≤ cutMax) :
    (∀ s ∈ _split_fallback_chunk text cutMin cutMax,
      s.1 ≤ s.2.1 ∧ s.2.1 ≤ (pyNormalize text).length ∧
      s.2.2.length = s.2.1 - s.1 ∧ pyStrip s.2.2 = s.2.2 ∧ s.2.2 ≠ []) ∧
    (∀ k (hk : k < (pyNormalize text).length),
      pySpace ((pyNormalize text).get ⟨k, hk⟩) = false →
      ∃ s ∈ _split_fallback_chunk text cutMin cutMax, s.1 ≤ k ∧ k < s.2.1) := by
  obtain ⟨l, hl, hprops, hcov⟩ :=
    splitGo_bundle (pyNormalize text) cutMin cutMax hmin hmax
      ((pyNormalize text).length + 1) 0 (by omega) (by omega)
  have hfb : _split_fallback_chunk text cutMin cutMax = l := by
    simp only [_split_fallback_chunk]
    rw [hl]
    rfl
  rw [hfb]
  constructor
  · intro s hs
    exact (hprops s hs).2
  · intro k hk hns
    exact hcov k hk (by omega) hns

/-! ### Assembler: span bounds -/

/-- The reconciled-and-clamped span always satisfies window_start ≤ start
    and end ≤ window_start + size, and start ≤ end holds whenever the
    (unclamped-from-above) start does not exceed the window's upper bound. -/
lemma reconcileSpan_bounds (ls le : Int) (ws size tlen : Nat) :
    (ws : Int) ≤ (reconcileSpan ls le ws size tlen).1 ∧
    (reconcileSpan ls le ws size tlen).2 ≤ (ws : Int) + (size : Int) ∧
    ((reconcileSpan ls le ws size tlen).1 ≤ (ws : Int) + (size : Int) →
      (reconcileSpan ls le ws size tlen).1 ≤ (reconcileSpan ls le ws size tlen).2) := by
  simp only [reconcileSpan]
  set gs := _detect_global_span ls ws (ws + size) size with hgs
  set ge := _detect_global_span le ws (ws + size) size with hge
  split_ifs <;> refine ⟨by omega, by omega, fun h => by omega⟩

lemma mkOraclePanel_span (cutMax ws size c : Nat) (it : Item) (p : Panel)
    (h : mkOraclePanel cutMax ws size c it = some p) :
    ∃ ls le tlen, p.spanStart = (reconcileSpan ls le ws size tlen).1 ∧
      p.spanEnd = (reconcileSpan ls le ws size tlen).2 := by
  rw [mkOraclePanel] at h
  by_cases h0 : pyStrip (it.text.getD []) = []
  · rw [if_pos h0] at h; cases h
  · rw [if_neg h0] at h
    have hp := (Option.some.injEq _ _).mp h
    subst hp
    exact ⟨_, _, _, rfl, rfl⟩

lemma mkOraclePanel_id (cutMax ws size c : Nat) (it : Item) (p : Panel)
    (h : mkOraclePanel cutMax ws size c it = some p) : p.id = cutId c := by
  rw [mkOraclePanel] at h
  by_cases h0 : pyStrip (it.text.getD []) = []
  · rw [if_pos h0] at h; cases h
  · rw [if_neg h0] at h
    have hp := (Option.some.injEq _ _).mp h
    subst hp
    rfl

lemma mkFallbackPanel_fields (ws size c : Nat) (s : Nat × Nat × Str) (p : Panel)
    (h : mkFallbackPanel ws size c s = some p) :
    p.id = cutId c ∧
    p.spanStart = ((ws + s.1 : Nat) : Int) ∧
    p.spanEnd = ((min (ws + s.1 + (pyStrip s.2.2).length) (ws + size) : Nat) : Int) := by
  rw [mkFallbackPanel] at h
  by_cases h0 : pyStrip s.2.2 = []
  · rw [if_pos h0] at h; cases h
  · rw [if_neg h0] at h
    have hp := (Option.some.injEq _ _).mp h
    subst hp
    exact ⟨rfl, rfl, rfl⟩

lemma mkFallbackPanel_some (ws size c : Nat) (s : Nat × Nat × Str)
    (h : pyStrip s.2.2 ≠ []) : ∃ p, mkFallbackPanel ws size c s = some p := by
  simp only [mkFallbackPanel]
  rw [if_neg h]
  exact ⟨_, rfl⟩

/-- Every panel of the oracle loop comes from mkOraclePanel at some counter. -/
lemma oracleLoop_mem (cutMax ws size : Nat) :
    ∀ (its : List Item) (c : Nat) (p : Panel),
      p ∈ (oracleLoop cutMax ws size its c).1 →
      ∃ c2 it, mkOraclePanel cutMax ws size c2 it = some p := by
  intro its
  induction its with
  | nil => intro c p hp; simp [oracleLoop] at hp
  | cons it rest ih =>
    intro c p hp
    simp only [oracleLoop] at hp
    cases hmk : mkOraclePanel cutMax ws size c it with
    | none => rw [hmk] at hp; exact ih c p hp
    | some q =>
      rw [hmk] at hp
      rcases List.mem_cons.mp hp with rfl | hmem
      · exact ⟨c, it, hmk⟩
      · exact ih (c + 1) p hmem

/-- Every panel of the fallback loop comes from mkFallbackPanel on one of
    the given segments. -/
lemma fallbackLoop_mem_src (ws size : Nat) :
    ∀ (segs : List (Nat × Nat × Str)) (c : Nat) (p : Panel),
      p ∈ (fallbackLoop ws size segs c).1 →
      ∃ c2 s, s ∈ segs ∧ mkFallbackPanel ws size c2 s = some p := by
  intro segs
  induction segs with
  | nil => intro c p hp; simp [fallbackLoop] at hp
  | cons s rest ih =>
    intro c p hp
    simp only [fallbackLoop] at hp
    cases hmk : mkFallbackPanel ws size c s with
    | none =>
      rw [hmk] at hp
      obtain ⟨c2, s2, hm, he⟩ := ih c p hp
      exact ⟨c2, s2, List.mem_cons_of_mem _ hm, he⟩
    | some q =>
      rw [hmk] at hp
      rcases List.mem_cons.mp hp with rfl | hmem
      · exact ⟨c, s, by simp, hmk⟩
      · obtain ⟨c2, s2, hm, he⟩ := ih (c + 1) p hmem
        exact ⟨c2, s2, List.mem_cons_of_mem _ hm, he⟩

/-- Conversely, each segment with non-empty strip produces a panel of the
    fallback loop with the expected span. -/
lemma fallbackLoop_mem (ws size : Nat) :
    ∀ (segs : List (Nat × Nat × Str)) (c : Nat) (s : Nat × Nat × Str), s ∈ segs →
      pyStrip s.2.2 ≠ [] →
      ∃ p ∈ (fallbackLoop ws size segs c).1,
        p.spanStart = ((ws + s.1 : Nat) : Int) ∧
        p.spanEnd = ((min (ws + s.1 + (pyStrip s.2.2).length) (ws + size) : Nat) : Int) := by
  intro segs
  induction segs with
  | nil => intro c s hs; simp at hs
  | cons s0 rest ih =>
    intro c s hs hne
    simp only [fallbackLoop]
    rcases List.mem_cons.mp hs with rfl | hmem
    · obtain ⟨p, hp⟩ := mkFallbackPanel_some ws size c s hne
      rw [hp]
      obtain ⟨_, h1, h2⟩ := mkFallbackPanel_fields ws size c s p hp
      exact ⟨p, by simp, h1, h2⟩
    · cases hmk : mkFallbackPanel ws size c s0 with
      | none =>
        obtain ⟨p, hm, h1, h2⟩ := ih c s hmem hne
        exact ⟨p, hm, h1, h2⟩
      | some q =>
        obtain ⟨p, hm, h1, h2⟩ := ih (c + 1) s hmem hne
        exact ⟨p, List.mem_cons_of_mem _ hm, h1, h2⟩

/-- Bounds on the segments handed to the fallback loop: start ≤ trimmed
    end, both within the chunk's length, the segment text is stripped with
    length end - start.  Needs cut_min, cut_max ≥ 1. -/
lemma windowSegs_bounds (cutMin cutMax : Nat) (hmin : 1 ≤ cutMin) (hmax : 1 ≤ cutMax)
    (chunkText : Str) :
    ∀ s ∈ windowSegs cutMin cutMax chunkText,
      s.1 ≤ chunkText.length ∧ pyStrip s.2.2 = s.2.2 ∧ s.2.2 ≠ [] := by
  intro s hs
  simp only [windowSegs] at hs
  by_cases h0 : _split_fallback_chunk chunkText cutMin cutMax = []
  · rw [if_pos h0] at hs
    by_cases h1 : pyStrip chunkText = []
    · rw [if_pos h1] at hs; simp at hs
    · rw [if_neg h1] at hs
      simp only [List.mem_singleton] at hs
      subst hs
      dsimp only
      have hl := length_pyLstrip chunkText
      exact ⟨by omega, pyStrip_idem chunkText, h1⟩
  · rw [if_neg h0] at hs
    have hp := (split_fallback_props chunkText cutMin cutMax hmin hmax).1 s hs
    have hn := pyNormalize_length_le chunkText
    exact ⟨by omega, hp.2.2.2.1, hp.2.2.2.2⟩

/-- Every panel of one window lies inside that window: start ≥ window
    start, end ≤ window end, and start ≤ end unless the reconciled start
    itself escaped past the window's upper bound. -/
lemma processWindow_spans (cutMin cutMax : Nat) (hmin : 1 ≤ cutMin) (hmax : 1 ≤ cutMax)
    (fullText : Str) (ws we : Nat) (hwe : ws ≤ we) (att : Attempt) (c : Nat) :
    ∀ p ∈ (processWindow cutMin cutMax fullText ws we att c).1,
      (ws : Int) ≤ p.spanStart ∧ p.spanEnd ≤ (we : Int) ∧
      (p.spanStart ≤ (we : Int) → p.spanStart ≤ p.spanEnd) := by
  intro p hp
  have hwssize : ((ws : Int) + ((we - ws : Nat) : Int)) = (we : Int) := by omega
  simp only [processWindow] at hp
  have hfall : ∀ (hq : p ∈ (fallbackLoop ws (we - ws)
      (windowSegs cutMin cutMax (pySlice fullText ws we)) c).1),
      (ws : Int) ≤ p.spanStart ∧ p.spanEnd ≤ (we : Int) ∧
      (p.spanStart ≤ (we : Int) → p.spanStart ≤ p.spanEnd) := by
    intro hq
    obtain ⟨c2, s, hsm, hmk⟩ := fallbackLoop_mem_src ws (we - ws) _ c p hq
    obtain ⟨_, h1, h2⟩ := mkFallbackPanel_fields ws (we - ws) c2 s p hmk
    obtain ⟨hb1, _, _⟩ := windowSegs_bounds cutMin cutMax hmin hmax (pySlice fullText ws we) s hsm
    have hslice : (pySlice fullText ws we).length ≤ we - ws := by
      rw [pySlice_length]; omega
    refine ⟨by rw [h1]; push_cast; omega, by rw [h2]; push_cast; omega, fun _ => ?_⟩
    rw [h1, h2]
    push_cast
    omega
  match att with
  | Attempt.exc a => exact hfall hp
  | Attempt.resp none => exact hfall hp
  | Attempt.resp (some []) => exact hfall hp
  | Attempt.resp (some (it :: its)) =>
    obtain ⟨c2, it2, hmk⟩ := oracleLoop_mem cutMax ws (we - ws) (it :: its) c p hp
    obtain ⟨ls, le, tlen, h1, h2⟩ := mkOraclePanel_span cutMax ws (we - ws) c2 it2 p hmk
    obtain ⟨hb1, hb2, hb3⟩ := reconcileSpan_bounds ls le ws (we - ws) tlen
    rw [h1, h2]
    rw [hwssize] at hb2 hb3
    exact ⟨hb1, hb2, hb3⟩

/-! ### Run-level membership -/

lemma derive_cut_parameters_pos (t : Int) :
    1 ≤ (derive_cut_parameters t).1 ∧ 1 ≤ (derive_cut_parameters t).2.1 := by
  simp only [derive_cut_parameters]
  constructor <;> omega

/-- Every emitted panel comes from processing one of the windows. -/
lemma runWindows_mem (cutMin cutMax : Nat) (fullText : Str) (attempts : Nat → Attempt) :
    ∀ (chl : List (Nat × Nat)) (idx c : Nat) (p : Panel),
      p ∈ runWindows cutMin cutMax fullText attempts chl idx c →
      ∃ ch ∈ chl, ∃ i c2,
        p ∈ (processWindow cutMin cutMax fullText ch.1 ch.2 (attempts i) c2).1 := by
  intro chl
  induction chl with
  | nil => intro idx c p hp; simp [runWindows] at hp
  | cons ch rest ih =>
    intro idx c p hp
    simp only [runWindows] at hp
    rcases List.mem_append.mp hp with hin | hin
    · exact ⟨ch, by simp, idx, c, hin⟩
    · obtain ⟨ch2, hm, i, c2, hin2⟩ := ih _ _ p hin
      exact ⟨ch2, List.mem_cons_of_mem _ hm, i, c2, hin2⟩

/-- Every window's processed panels all appear in the run's output. -/
lemma runWindows_lift (cutMin cutMax : Nat) (fullText : Str) (attempts : Nat → Attempt) :
    ∀ (chl : List (Nat × Nat)) (idx c : Nat) (ch : Nat × Nat), ch ∈ chl →
      ∃ i c2, ∀ p ∈ (processWindow cutMin cutMax fullText ch.1 ch.2 (attempts i) c2).1,
        p ∈ runWindows cutMin cutMax fullText attempts chl idx c := by
  intro chl
  induction chl with
  | nil => intro idx c ch h; simp at h
  | cons ch0 rest ih =>
    intro idx c ch h
    rcases List.mem_cons.mp h with rfl | hm
    · refine ⟨idx, c, fun p hp => ?_⟩
      simp only [runWindows]
      exact List.mem_append_left _ hp
    · obtain ⟨i, c2, hsub⟩ := ih (idx + 1)
        (processWindow cutMin cutMax fullText ch0.1 ch0.2 (attempts idx) c).2 ch hm
      refine ⟨i, c2, fun p hp => ?_⟩
      simp only [runWindows]
      exact List.mem_append_right _ (hsub p hp)

/-! ### C1 -/

/-- C1 counterexample: a single-window run over "abcdefghij" (window
    [0, 10)) where the oracle reports the span (100, 105): both offsets
    exceed 1.5× the window size, pass the reconciler unchanged, and only
    the end is clamped — the emitted Cut has span (100, 10), violating
    start ≤ end ≤ window_start + window_size. -/
theorem C1_counterexample :
    (let it : Item := { text := some ("abcde".toList), locStart := some 100, locEnd := some 105 }
     (llm_cut_and_label_with_params (fun _ => Attempt.resp (some [it]))
        ("abcdefghij".toList) 150 2000 150).map (fun p => (p.spanStart, p.spanEnd)) =
      [((100 : Int), (10 : Int))]) ∧
    chunk_for_llm ("abcdefghij".toList) 2000 150 = [(0, 10)] ∧
    ¬ ((0 : Int) ≤ 100 ∧ (100 : Int) ≤ 10 ∧ (10 : Int) ≤ 0 + 10) := by decide

/-- C1 (amended): every emitted Cut's span satisfies
    window_start ≤ span.start and span.end ≤ window_end for the window that
    produced it, and span.start ≤ span.end holds whenever
    span.start ≤ window_end; a reported offset beyond 1.5× the window size
    passes the reconciler unchanged and can leave span.start past the
    window end with span.end clamped below it.  Fallback-path Cuts always
    satisfy the full chain. -/
theorem C1_span_bounds (attempts : Nat → Attempt) (fullText : Str) (chunkTarget : Int)
    (window overlap : Nat) (p : Panel)
    (hp : p ∈ llm_cut_and_label_with_params attempts fullText chunkTarget window overlap) :
    ∃ ch ∈ chunk_for_llm fullText window overlap,
      (ch.1 : Int) ≤ p.spanStart ∧ p.spanEnd ≤ (ch.2 : Int) ∧
      (p.spanStart ≤ (ch.2 : Int) → p.spanStart ≤ p.spanEnd) := by
  simp only [llm_cut_and_label_with_params] at hp
  obtain ⟨ch, hm, i, c2, hin⟩ := runWindows_mem _ _ fullText attempts _ 0 1 p hp
  have hm2 := hm
  simp only [chunk_for_llm] at hm2
  have hwf := chunkGo_wf (pyNormalize fullText) window overlap _ 0 ch hm2
  have hd := derive_cut_parameters_pos chunkTarget
  have hb := processWindow_spans (derive_cut_parameters chunkTarget).1
    (derive_cut_parameters chunkTarget).2.1 hd.1 hd.2 fullText ch.1 ch.2 hwf.2.1
    (attempts i) c2 p hin
  exact ⟨ch, hm, hb⟩

/-- Witness for C1 on a one-window fallback run over "hello". -/
theorem C1_span_bounds_witness :
    ({ id := ("c0001".toList), text := ("hello".toList), typ := ("narration".toList),
       speaker := ("unknown".toList), speakers := none, time := ("unknown".toList),
       location := [], scene := [], tone := ("neutral".toList), emotion := ("neutral".toList),
       action := [], entities := [], spanStart := 0, spanEnd := 5 } : Panel) ∈
      llm_cut_and_label_with_params (fun _ => Attempt.exc false) ("hello".toList) 150 2000 150 ∧
    ∃ ch ∈ chunk_for_llm ("hello".toList) 2000 150,
      (ch.1 : Int) ≤ (0 : Int) ∧ (5 : Int) ≤ (ch.2 : Int) ∧
      ((0 : Int) ≤ (ch.2 : Int) → (0 : Int) ≤ (5 : Int)) := by
  have hmem :
      ({ id := ("c0001".toList), text := ("hello".toList), typ := ("narration".toList),
         speaker := ("unknown".toList), speakers := none, time := ("unknown".toList),
         location := [], scene := [], tone := ("neutral".toList), emotion := ("neutral".toList),
         action := [], entities := [], spanStart := 0, spanEnd := 5 } : Panel) ∈
      llm_cut_and_label_with_params (fun _ => Attempt.exc false) ("hello".toList) 150 2000 150 := by
    decide
  exact ⟨hmem, C1_span_bounds (fun _ => Attempt.exc false) ("hello".toList) 150 2000 150 _ hmem⟩

/-! ### C3 -/

lemma get_congr_list (l l2 : Str) (h : l = l2) (j : Nat) (hj : j < l.length) :
    l.get ⟨j, hj⟩ = l2.get ⟨j, h ▸ hj⟩ := by
  subst h
  rfl

/-- With a failing attempt, processWindow runs the fallback branch. -/
lemma processWindow_fallback_eq (cutMin cutMax : Nat) (fullText : Str) (ws we : Nat)
    (att : Attempt) (hatt : attemptFails att = true) (c : Nat) :
    processWindow cutMin cutMax fullText ws we att c =
      fallbackLoop ws (we - ws) (windowSegs cutMin cutMax (pySlice fullText ws we)) c := by
  cases att with
  | exc a => rfl
  | resp d =>
    cases d with
    | none => rfl
    | some l =>
      cases l with
      | nil => rfl
      | cons it its => simp [attemptFails] at hatt

/-- A failed window's fallback Cuts cover every non-whitespace character of
    the window, provided the text holds no carriage returns (so the
    splitter's normalization is the identity). -/
lemma processWindow_fallback_cover (cutMin cutMax : Nat) (hmin : 1 ≤ cutMin) (hmax : 1 ≤ cutMax)
    (fullText : Str) (hcr : '\r' ∉ fullText) (ws we : Nat) (hwe : ws ≤ we)
    (hlen : we ≤ fullText.length) (att : Attempt) (hatt : attemptFails att = true) (c : Nat) :
    ∀ k (hk : k < fullText.length), ws ≤ k → k < we →
      pySpace (fullText.get ⟨k, hk⟩) = false →
      ∃ p ∈ (processWindow cutMin cutMax fullText ws we att c).1,
        p.spanStart ≤ (k : Int) ∧ (k : Int) < p.spanEnd := by
  intro k hk hwk hkwe hns
  set chunkText := pySlice fullText ws we with hct
  have hctlen : chunkText.length = we - ws := by
    rw [hct, pySlice_length]; omega
  have hctcr : '\r' ∉ chunkText := fun hm => hcr (mem_pySlice fullText ws we _ hm)
  have hctnorm : pyNormalize chunkText = chunkText := pyNormalize_of_no_cr chunkText hctcr
  have hj : k - ws < chunkText.length := by omega
  have hjget : pySpace (chunkText.get ⟨k - ws, hj⟩) = false := by
    have hgk : chunkText.get ⟨k - ws, hj⟩ = fullText.get ⟨ws + (k - ws), by omega⟩ :=
      pySlice_get fullText ws we (k - ws) hj (by omega)
    rw [hgk]
    have heq : fullText.get ⟨ws + (k - ws), by omega⟩ = fullText.get ⟨k, hk⟩ := by
      congr 1
      simp only [Fin.mk.injEq]
      omega
    rw [heq]
    exact hns
  have hjn : k - ws < (pyNormalize chunkText).length := by rw [hctnorm]; exact hj
  have hjgetn : pySpace ((pyNormalize chunkText).get ⟨k - ws, hjn⟩) = false := by
    have := get_congr_list (pyNormalize chunkText) chunkText hctnorm (k - ws) hjn
    rw [this]
    exact hjget
  obtain ⟨s, hsm, hs1, hs2⟩ :=
    (split_fallback_props chunkText cutMin cutMax hmin hmax).2 (k - ws) hjn hjgetn
  have hsprops := (split_fallback_props chunkText cutMin cutMax hmin hmax).1 s hsm
  have hle2 : s.2.1 ≤ chunkText.length := by
    have := hsprops.2.1
    rwa [hctnorm] at this
  have hsegsne : _split_fallback_chunk chunkText cutMin cutMax ≠ [] := by
    intro h0
    rw [h0] at hsm
    simp at hsm
  have hws : windowSegs cutMin cutMax chunkText = _split_fallback_chunk chunkText cutMin cutMax := by
    simp only [windowSegs]
    rw [if_neg hsegsne]
  have hstripne : pyStrip s.2.2 ≠ [] := by
    rw [hsprops.2.2.2.1]
    exact hsprops.2.2.2.2
  obtain ⟨p, hpm, hp1, hp2⟩ := fallbackLoop_mem ws (we - ws)
    (windowSegs cutMin cutMax chunkText) c s (by rw [hws]; exact hsm) hstripne
  have hgoal : p.spanStart ≤ (k : Int) ∧ (k : Int) < p.spanEnd := by
    rw [hp1, hp2, hsprops.2.2.2.1]
    have hlen2 : s.2.2.length = s.2.1 - s.1 := hsprops.2.2.1
    have hle1 : s.1 ≤ s.2.1 := hsprops.1
    push_cast
    omega
  rw [processWindow_fallback_eq cutMin cutMax fullText ws we att hatt c]
  exact ⟨p, hpm, hgoal⟩

/-- C3 counterexample: for the CRLF text "ab\r\ncd" a fallback-only run
    emits a single Cut with span (0, 4): the windows are computed over the
    normalized text (length 5) but sliced from the raw text, so the
    non-whitespace characters at positions 4 and 5 are never covered. -/
theorem C3_counterexample :
    ((llm_cut_and_label_with_params (fun _ => Attempt.exc false)
        ("ab\r\ncd".toList) 150 2000 150).map (fun p => (p.spanStart, p.spanEnd)) =
      [((0 : Int), (4 : Int))]) ∧
    ("ab\r\ncd".toList).getD 5 ' ' = 'd' ∧ pySpace 'd' = false ∧ 5 < ("ab\r\ncd".toList).length ∧
    ¬ ∃ p ∈ llm_cut_and_label_with_params (fun _ => Attempt.exc false)
        ("ab\r\ncd".toList) 150 2000 150,
      p.spanStart ≤ (5 : Int) ∧ (5 : Int) < p.spanEnd := by decide

/-- C3 (amended): the fallback splitter never produces a segment outside
    [0, len(window_text)) — 0 ≤ start ≤ end ≤ len of the normalized window
    text, itself at most len(window_text) — and, for source texts without
    carriage returns, a run in which every window fails onto the fallback
    path emits Cuts whose spans cover every non-whitespace character of
    the source text (whitespace trimmed at segment edges may be lost).
    With carriage returns present, characters beyond the normalized length
    can be lost (see the counterexample). -/
theorem C3_fallback_coverage (text : Str) (chunkTarget : Int) (window overlap : Nat)
    (hw : 1 ≤ window) (hcr : '\r' ∉ text) (attempts : Nat → Attempt)
    (hfail : ∀ i, attemptFails (attempts i) = true) :
    (∀ (t2 : Str) (cMin cMax : Nat), 1 ≤ cMin → 1 ≤ cMax →
      ∀ s ∈ _split_fallback_chunk t2 cMin cMax,
        s.1 ≤ s.2.1 ∧ s.2.1 ≤ (pyNormalize t2).length ∧ (pyNormalize t2).length ≤ t2.length) ∧
    (∀ k (hk : k < text.length), pySpace (text.get ⟨k, hk⟩) = false →
      ∃ p ∈ llm_cut_and_label_with_params attempts text chunkTarget window overlap,
        p.spanStart ≤ (k : Int) ∧ (k : Int) < p.spanEnd) := by
  constructor
  · intro t2 cMin cMax hmin hmax s hs
    have hp := (split_fallback_props t2 cMin cMax hmin hmax).1 s hs
    exact ⟨hp.1, hp.2.1, pyNormalize_length_le t2⟩
  · intro k hk hns
    have hnorm : pyNormalize text = text := pyNormalize_of_no_cr text hcr
    have hchunks : chunk_for_llm text window overlap =
        chunkGo text window overlap (text.length + 1) 0 := by
      simp only [chunk_for_llm, hnorm]
    obtain ⟨ch, hm, hc1, hc2⟩ :=
      chunkGo_cover text window overlap hw (text.length + 1) 0 (by omega) k (by omega) hk
    have hwf := chunkGo_wf text window overlap (text.length + 1) 0 ch hm
    have hd := derive_cut_parameters_pos chunkTarget
    have hm2 : ch ∈ chunk_for_llm text window overlap := by rw [hchunks]; exact hm
    obtain ⟨i, c2, hsub⟩ := runWindows_lift (derive_cut_parameters chunkTarget).1
      (derive_cut_parameters chunkTarget).2.1 text attempts
      (chunk_for_llm text window overlap) 0 1 ch hm2
    obtain ⟨p, hpm, hcov⟩ := processWindow_fallback_cover (derive_cut_parameters chunkTarget).1
      (derive_cut_parameters chunkTarget).2.1 hd.1 hd.2 text hcr ch.1 ch.2 hwf.2.1
      hwf.2.2.1 (attempts i) (hfail i) c2 k hk hc1 hc2 hns
    refine ⟨p, ?_, hcov⟩
    have := hsub p hpm
    simpa only [llm_cut_and_label_with_params] using this

/-- Witness for C3 at text "xy" with every attempt failing. -/
theorem C3_fallback_coverage_witness :
    (1 ≤ 2000 ∧ ('\r' ∉ ("xy".toList))) ∧
    ∃ p ∈ llm_cut_and_label_with_params (fun _ => Attempt.exc false) ("xy".toList) 150 2000 150,
      p.spanStart ≤ ((0 : Nat) : Int) ∧ ((0 : Nat) : Int) < p.spanEnd :=
  ⟨⟨by decide, by decide⟩,
    (C3_fallback_coverage ("xy".toList) 150 2000 150 (by decide) (by decide)
      (fun _ => Attempt.exc false) (fun _ => rfl)).2 0 (by decide) (by decide)⟩

/-! ### C5: identifier sequence -/

lemma oracleLoop_ids (cutMax ws size : Nat) :
    ∀ (its : List Item) (c : Nat),
      (oracleLoop cutMax ws size its c).2 = c + (oracleLoop cutMax ws size its c).1.length ∧
      ∀ k (h : k < (oracleLoop cutMax ws size its c).1.length),
        ((oracleLoop cutMax ws size its c).1.get ⟨k, h⟩).id = cutId (c + k) := by
  intro its
  induction its with
  | nil =>
    intro c
    refine ⟨by simp [oracleLoop], ?_⟩
    intro k h
    simp [oracleLoop] at h
  | cons it rest ih =>
    intro c
    simp only [oracleLoop]
    cases hmk : mkOraclePanel cutMax ws size c it with
    | none => exact ih c
    | some p =>
      dsimp only
      obtain ⟨ihc, ihk⟩ := ih (c + 1)
      constructor
      · simp only [List.length_cons]
        omega
      · intro k h
        cases k with
        | zero =>
          dsimp only [List.get]
          rw [mkOraclePanel_id cutMax ws size c it p hmk]
          congr 1
        | succ k2 =>
          simp only [List.get_cons_succ]
          have := ihk k2 (by simpa using h)
          rw [this]
          congr 1
          omega

lemma fallbackLoop_ids (ws size : Nat) :
    ∀ (segs : List (Nat × Nat × Str)) (c : Nat),
      (fallbackLoop ws size segs c).2 = c + (fallbackLoop ws size segs c).1.length ∧
      ∀ k (h : k < (fallbackLoop ws size segs c).1.length),
        ((fallbackLoop ws size segs c).1.get ⟨k, h⟩).id = cutId (c + k) := by
  intro segs
  induction segs with
  | nil =>
    intro c
    refine ⟨by simp [fallbackLoop], ?_⟩
    intro k h
    simp [fallbackLoop] at h
  | cons s rest ih =>
    intro c
    simp only [fallbackLoop]
    cases hmk : mkFallbackPanel ws size c s with
    | none => exact ih c
    | some p =>
      dsimp only
      obtain ⟨ihc, ihk⟩ := ih (c + 1)
      constructor
      · simp only [List.length_cons]
        omega
      · intro k h
        cases k with
        | zero =>
          dsimp only [List.get]
          rw [(mkFallbackPanel_fields ws size c s p hmk).1]
          congr 1
        | succ k2 =>
          simp only [List.get_cons_succ]
          have := ihk k2 (by simpa using h)
          rw [this]
          congr 1
          omega

lemma processWindow_ids (cutMin cutMax : Nat) (fullText : Str) (ws we : Nat)
    (att : Attempt) (c : Nat) :
    (processWindow cutMin cutMax fullText ws we att c).2 =
      c + (processWindow cutMin cutMax fullText ws we att c).1.length ∧
    ∀ k (h : k < (processWindow cutMin cutMax fullText ws we att c).1.length),
      ((processWindow cutMin cutMax fullText ws we att c).1.get ⟨k, h⟩).id = cutId (c + k) := by
  match att with
  | Attempt.exc a => exact fallbackLoop_ids ws (we - ws) _ c
  | Attempt.resp none => exact fallbackLoop_ids ws (we - ws) _ c
  | Attempt.resp (some []) => exact fallbackLoop_ids ws (we - ws) _ c
  | Attempt.resp (some (it :: its)) => exact oracleLoop_ids cutMax ws (we - ws) (it :: its) c

lemma runWindows_ids (cutMin cutMax : Nat) (fullText : Str) (attempts : Nat → Attempt) :
    ∀ (chl : List (Nat × Nat)) (idx c : Nat) (k : Nat)
      (h : k < (runWindows cutMin cutMax fullText attempts chl idx c).length),
      ((runWindows cutMin cutMax fullText attempts chl idx c).get ⟨k, h⟩).id = cutId (c + k) := by
  intro chl
  induction chl with
  | nil => intro idx c k h; simp [runWindows] at h
  | cons ch rest ih =>
    intro idx c k h
    obtain ⟨hcnt, hids⟩ := processWindow_ids cutMin cutMax fullText ch.1 ch.2 (attempts idx) c
    simp only [runWindows] at h ⊢
    rw [List.get_eq_getElem]
    dsimp only
    rw [List.getElem_append]
    split
    case isTrue hlt =>
      have := hids k hlt
      rw [List.get_eq_getElem] at this
      exact this
    case isFalse hge =>
      have hlen : (processWindow cutMin cutMax fullText ch.1 ch.2 (attempts idx) c).1.length ≤ k := by
        omega
      have hrest := ih (idx + 1)
        (processWindow cutMin cutMax fullText ch.1 ch.2 (attempts idx) c).2
        (k - (processWindow cutMin cutMax fullText ch.1 ch.2 (attempts idx) c).1.length)
        (by rw [List.length_append] at h; omega)
      rw [List.get_eq_getElem] at hrest
      rw [hrest, hcnt]
      congr 1
      omega

/-- C5: across a full assembler run the emitted Cut identifiers are exactly
    c0001, c0002, c0003, … in emission order — the k-th emitted Cut
    (0-based) has identifier cutId (k+1) — with one counter shared across
    all windows and across both the oracle and the fallback paths. -/
theorem C5_ids (attempts : Nat → Attempt) (fullText : Str) (chunkTarget : Int)
    (window overlap : Nat) (k : Nat)
    (h : k < (llm_cut_and_label_with_params attempts fullText chunkTarget window overlap).length) :
    ((llm_cut_and_label_with_params attempts fullText chunkTarget window overlap).get ⟨k, h⟩).id =
      cutId (k + 1) := by
  simp only [llm_cut_and_label_with_params] at h ⊢
  have := runWindows_ids (derive_cut_parameters chunkTarget).1
    (derive_cut_parameters chunkTarget).2.1 fullText attempts
    (chunk_for_llm fullText window overlap) 0 1 k h
  rw [this]
  congr 1
  omega

/-- Witness for C5 on a one-window fallback run over "hi". -/
theorem C5_ids_witness :
    0 < (llm_cut_and_label_with_params (fun _ => Attempt.exc true)
      ("hi".toList) 150 2000 150).length ∧
    ((llm_cut_and_label_with_params (fun _ => Attempt.exc true)
      ("hi".toList) 150 2000 150).get ⟨0, by decide⟩).id = cutId (0 + 1) :=
  ⟨by decide, C5_ids (fun _ => Attempt.exc true) ("hi".toList) 150 2000 150 0 (by decide)⟩

/-! ### C2 -/

/-- C2: the AuthenticationError abort is swallowed by the code's own
    exception handler — the `raise` on line 361 is caught by the inner
    `except Exception: pass` on lines 362-363 — so a run whose every
    window's oracle call raises an authentication error still falls back
    and continues: over "abcdefghij" with window 6, overlap 2 it emits
    fallback (narration) Cuts for window [0,6) and then still processes
    window [4,10), instead of aborting with no Cuts as the claim states. -/
theorem C2_auth_swallowed :
    (llm_cut_and_label_with_params (fun _ => Attempt.exc true) ("abcdefghij".toList) 150 6 2).map
      (fun p => (p.id, p.typ, p.spanStart, p.spanEnd)) =
      [(("c0001".toList), ("narration".toList), (0 : Int), (6 : Int)),
       (("c0002".toList), ("narration".toList), (4 : Int), (10 : Int))] := by decide

/-! ### C9 -/

/-- C9 counterexample: (i) on "noise {"a": 1}" _safe_json_object returns
    None although the text holds the well-formed braced region
    {"a": 1} — the claimed region search would decode it (the search is
    never implemented; JSON_OBJECT_EXTRACT is dead code); (ii) on the
    valid JSON text "[[ {"a": 1} ]]" direct decoding succeeds with the
    outer array, yet _safe_json_loads returns the inner array because the
    greedy pattern search is applied before — not after — direct decoding. -/
theorem C9_counterexample :
    _safe_json_object (("noise \x7b\"a\": 1\x7d").toList) = none ∧
    claimPolicyObject (("noise \x7b\"a\": 1\x7d").toList) =
      some [(("a".toList), Json.num ("1".toList))] ∧
    json_loads (("[[ \x7b\"a\": 1\x7d ]]").toList) =
      some (Json.arr [Json.arr [Json.obj [(("a".toList), Json.num ("1".toList))]]]) ∧
    _safe_json_loads (("[[ \x7b\"a\": 1\x7d ]]").toList) =
      some [Json.obj [(("a".toList), Json.num ("1".toList))]] ∧
    (some [Json.obj [(("a".toList), Json.num ("1".toList))]] ≠
      some [Json.arr [Json.obj [(("a".toList), Json.num ("1".toList))]]]) := by
  refine ⟨rfl, rfl, rfl, rfl, ?_⟩
  intro h
  simp only [Option.some.injEq, List.cons.injEq] at h
  exact Json.noConfusion h.1

/-- C9 (amended): neither parser raises (both are total functions);
    _safe_json_loads applies the greedy array-pattern search first and
    then decodes exactly once — the match when the search succeeds, the
    whole fence-stripped text otherwise — returning the value only when it
    is a list; _safe_json_object performs no substring search at all: it
    decodes the fence-stripped text directly and returns the value only
    when it is an object. -/
theorem C9_parse_policy (raw : Str) :
    _safe_json_loads raw = parse_array_amended raw ∧
    _safe_json_object raw = parse_object_amended raw := by
  constructor
  · simp only [_safe_json_loads, parse_array_amended]
    cases arrayExtract (pyFenceStrip (pyStrip raw)) <;> rfl
  · rfl

/-! ### C7 -/

lemma alookup_aset_self {α β : Type} [DecidableEq α] (k : α) (v : β) (l : List (α × β)) :
    alookup k (aset k v l) = some v := by
  induction l with
  | nil => simp [aset, alookup]
  | cons ab r ih =>
    obtain ⟨a, b⟩ := ab
    simp only [aset]
    by_cases h : a = k
    · rw [if_pos h]
      simp [alookup]
    · rw [if_neg h]
      simp only [alookup]
      rw [if_neg h]
      exact ih

lemma alookup_aset_ne {α β : Type} [DecidableEq α] (k k2 : α) (hne : k ≠ k2) (v : β)
    (l : List (α × β)) : alookup k2 (aset k v l) = alookup k2 l := by
  induction l with
  | nil =>
    simp only [aset, alookup]
    rw [if_neg hne]
  | cons ab r ih =>
    obtain ⟨a, b⟩ := ab
    simp only [aset]
    by_cases h : a = k
    · rw [if_pos h]
      simp only [alookup]
      rw [if_neg hne, if_neg (h ▸ hne)]
    · rw [if_neg h]
      simp only [alookup]
      by_cases h2 : a = k2
      · rw [if_pos h2, if_pos h2]
      · rw [if_neg h2, if_neg h2]
        exact ih

lemma descUpd_nil (o : Option Str) : descUpd o [] = o := by
  cases o with
  | none => rfl
  | some v =>
    simp only [descUpd, firstDesc, List.filter_nil, List.headD_nil]
    by_cases hv : v = []
    · subst hv; rfl
    · rw [if_neg hv]

lemma firstDesc_append (ms1 ms2 : List Str) :
    firstDesc (ms1 ++ ms2) = if firstDesc ms1 = [] then firstDesc ms2 else firstDesc ms1 := by
  simp only [firstDesc, List.filter_append]
  cases hf : ms1.filter (fun d => d ≠ []) with
  | nil => simp
  | cons d rest =>
    have hd : d ≠ [] := by
      have hm : d ∈ ms1.filter (fun d => d ≠ []) := by rw [hf]; simp
      have := List.mem_filter.mp hm
      simpa using this.2
    simp [hd]

lemma descUpd_append (o : Option Str) (ms1 ms2 : List Str) :
    descUpd (descUpd o ms1) ms2 = descUpd o (ms1 ++ ms2) := by
  cases o with
  | none =>
    by_cases h1 : ms1 = []
    · subst h1
      simp [descUpd]
    · have happ : ¬ (ms1 ++ ms2 = []) := by simp [h1]
      simp only [descUpd, if_neg h1, if_neg happ]
      rw [firstDesc_append]
  | some v =>
    by_cases hv : v = []
    · subst hv
      simp [descUpd, firstDesc_append]
    · simp [descUpd, hv]

lemma alookup_addChar (acc : List (Str × Str)) (c : GraphChar) (name : Str) :
    alookup name (addChar acc c) =
      match charMention1 name c with
      | none => alookup name acc
      | some d => descUpd (alookup name acc) [d] := by
  simp only [addChar, charMention1]
  by_cases h0 : pyStrip (c.name.getD []) = []
  · simp only [if_pos h0]
  · simp only [if_neg h0]
    by_cases hname : pyStrip (c.name.getD []) = name
    · rw [if_pos hname, hname]
      set d := pyStrip (c.description.getD []) with hd
      by_cases hcond : alookup name acc = none ∨ (d ≠ [] ∧ alookup name acc = some [])
      · rw [if_pos hcond]
        rw [alookup_aset_self name d acc]
        rcases hcond with hnone | ⟨hdne, hemp⟩
        · rw [hnone]
          dsimp only [descUpd]
          by_cases hdn : d = []
          · rw [hdn]
            simp [firstDesc]
          · simp [firstDesc, hdn]
        · rw [hemp]
          dsimp only [descUpd]
          simp [firstDesc, hdne]
      · rw [if_neg hcond]
        push_neg at hcond
        obtain ⟨hnn, himp⟩ := hcond
        cases hlk : alookup name acc with
        | none => exact absurd hlk hnn
        | some v =>
          dsimp only [descUpd]
          by_cases hv : v = []
          · subst hv
            have hdnil : d = [] := by
              by_contra hdn
              exact (himp hdn) hlk
            rw [hdnil]
            simp [firstDesc]
          · simp [hv]
    · rw [if_neg hname]
      by_cases hcond : alookup (pyStrip (c.name.getD [])) acc = none ∨
          (pyStrip (c.description.getD []) ≠ [] ∧
            alookup (pyStrip (c.name.getD [])) acc = some [])
      · rw [if_pos hcond]
        exact alookup_aset_ne _ name hname _ acc
      · rw [if_neg hcond]

lemma alookup_foldl_addChar :
    ∀ (chars : List GraphChar) (acc : List (Str × Str)) (name : Str),
      alookup name (chars.foldl addChar acc) =
        descUpd (alookup name acc) (chars.filterMap (charMention1 name)) := by
  intro chars
  induction chars with
  | nil =>
    intro acc name
    simp only [List.foldl_nil, List.filterMap_nil]
    exact (descUpd_nil _).symm
  | cons c rest ih =>
    intro acc name
    simp only [List.foldl_cons, List.filterMap_cons]
    rw [ih (addChar acc c) name, alookup_addChar acc c name]
    cases hm : charMention1 name c with
    | none => rfl
    | some d =>
      rw [descUpd_append (alookup name acc) [d] (rest.filterMap (charMention1 name))]
      rfl

lemma alookup_graphNodesFrom :
    ∀ (exts : List (Option GraphData)) (acc : List (Str × Str)) (name : Str),
      alookup name (graphNodesFrom acc exts) =
        descUpd (alookup name acc) (mentionDescs exts name) := by
  intro exts
  induction exts with
  | nil =>
    intro acc name
    simp only [graphNodesFrom, mentionDescs, List.filterMap_nil, List.flatMap_nil]
    exact (descUpd_nil _).symm
  | cons ext rest ih =>
    intro acc name
    cases ext with
    | none =>
      simp only [graphNodesFrom, mentionDescs, List.filterMap_cons]
      exact ih acc name
    | some d =>
      simp only [graphNodesFrom, mentionDescs, List.filterMap_cons, List.flatMap_cons]
      rw [ih (d.characters.foldl addChar acc) name]
      rw [alookup_foldl_addChar d.characters acc name]
      rw [descUpd_append]
      rfl

/-- C7 counterexample: two windows both mention "Bob", first with the
    short non-empty description "ab", then with the longer "abcdef"; the
    merged node keeps "ab" (first non-empty wins, not longest).  And a
    window mentioning "Alice" and "alice" — equal under case folding —
    produces two distinct nodes: the dedup key is case-sensitive. -/
theorem C7_counterexample :
    (let e1 : GraphData :=
      { characters := [{ name := some ("Bob".toList), description := some ("ab".toList) }],
        relationships := [] }
     let e2 : GraphData :=
      { characters := [{ name := some ("Bob".toList), description := some ("abcdef".toList) }],
        relationships := [] }
     alookup ("Bob".toList) (graphNodes [some e1, some e2]) = some ("ab".toList)) ∧
    ("ab".toList) ≠ ("abcdef".toList) ∧
    ("ab".toList).length < ("abcdef".toList).length ∧
    (let f1 : GraphData :=
      { characters := [{ name := some ("Alice".toList), description := some ("x".toList) },
                       { name := some ("alice".toList), description := some ("y".toList) }],
        relationships := [] }
     (graphNodes [some f1]).length = 2 ∧
     ("Alice".toList).map Char.toLower = ("alice".toList).map Char.toLower) := by decide

/-- C7 (amended): character descriptions are merged per exact
    whitespace-stripped name — the dedup key is case-sensitive — and the
    kept description is the first non-empty (stripped) description seen
    across all windows in order, or "" when every mention's description is
    empty; a name is a node exactly when it has at least one mention. -/
theorem C7_desc_merge (exts : List (Option GraphData)) (name : Str) :
    alookup name (graphNodes exts) =
      (if mentionDescs exts name = [] then none
       else some (firstDesc (mentionDescs exts name))) := by
  rw [graphNodes, alookup_graphNodesFrom exts [] name]
  rfl

end MSA
